import Mathlib

/-!
Shallow embedding of the puzzlefs rootfs builder (src/builder/src/lib.rs) and
verification of the specified properties.

Modelling conventions:
* bytes and file-name components are naturals (names carry the bytewise total
  order of host file names);
* the content-addressed blob store is ideal: `oci.put_blob` yields the stored
  byte string itself as digest;
* the external collaborators that are not among the given sources (the
  fastcdc_fs chunker, the format crate's wire encoding) are modelled from the
  spec, as marked on their definitions;
* fallible code returns an explicit outcome that distinguishes a returned
  `Error` from a failed `assert!`, which aborts the process.
-/

namespace PFS

/-- Bytes are modelled as naturals. -/
abbrev Byte := Nat

/-- Content digest of a stored blob. The store is content-addressed and
modelled as ideal (collision-free), so a digest is represented by the stored
byte string itself. -/
abbrev Digest := List Byte

/-- format::BlobRefKind: bytes either live inside the metadata blob being
built (Local, addressed by offset) or in an external content blob named by
digest (Other). -/
inductive BlobRefKind where
  | Local : BlobRefKind
  | Other (digest : Digest) : BlobRefKind
deriving DecidableEq, Repr

/-- format::BlobRef. -/
structure BlobRef where
  kind : BlobRefKind
  offset : Nat
deriving DecidableEq, Repr

/-- format::FileChunk: one span of file content inside a blob. -/
structure FileChunk where
  blob : BlobRef
  len : Nat
deriving DecidableEq, Repr

/-- format::DirEnt: child name and target image inode number. -/
structure DirEnt where
  name : Nat
  ino : Nat
deriving DecidableEq, Repr

/-- Entity kind as read from host metadata (md.is_dir() / md.is_file()). -/
inductive MetaKind where
  | dir
  | file
  | other
deriving DecidableEq, Repr

/-- The slice of fs::Metadata the builder uses: host inode number (md.ino()),
entity kind, and byte size (md.len()). -/
structure Metadata where
  ino : Nat
  kind : MetaKind
  len : Nat
deriving DecidableEq, Repr

/-- format::InodeAdditional (extended metadata, e.g. a symlink target) is
produced by host metadata extraction, which is external; it is modelled as an
abstract token. -/
abbrev InodeAdditional := Nat

/-- Mode-specific payload of a final inode record: a directory's entry-list
offset, a file's chunk-list offset, or nothing for Other entities. -/
inductive InodeMode where
  | dir (dirent_offset : Nat)
  | file (chunk_offset : Nat)
  | other
deriving DecidableEq, Repr

/-- format::Inode, the final wire-ready record of one entity. -/
structure Inode where
  ino : Nat
  mode : InodeMode
  md : Metadata
  additional : Option BlobRef
deriving DecidableEq, Repr

/-- Inode::new_dir(ino, md, dirent_offset, additional). -/
def Inode.new_dir (ino : Nat) (md : Metadata) (dirent_offset : Nat)
    (additional : Option BlobRef) : Inode :=
  ⟨ino, .dir dirent_offset, md, additional⟩

/-- Inode::new_file(ino, md, chunk_offset, additional). -/
def Inode.new_file (ino : Nat) (md : Metadata) (chunk_offset : Nat)
    (additional : Option BlobRef) : Inode :=
  ⟨ino, .file chunk_offset, md, additional⟩

/-- Inode::new_other(ino, md, additional). -/
def Inode.new_other (ino : Nat) (md : Metadata) (additional : Option BlobRef) : Inode :=
  ⟨ino, .other, md, additional⟩

/-- format::Rootfs, the returned descriptor. -/
structure Rootfs where
  metadatas : List BlobRef
deriving DecidableEq, Repr

/-- Builder-side staging record of one directory (struct Dir in the source). -/
structure Dir where
  ino : Nat
  dir_list : List DirEnt
  md : Metadata
  additional : Option InodeAdditional
deriving DecidableEq, Repr

/-- Builder-side staging record of one regular file (struct File in the
source); the FileChunkList wrapper is flattened to its chunks field. -/
structure File where
  ino : Nat
  chunk_list : List FileChunk
  md : Metadata
  additional : Option InodeAdditional
deriving DecidableEq, Repr

/-- Outcome of a builder computation: a value, a returned Error (the crate's
Result::Err), or a failed assert! / assert_eq!, which aborts the process and
is not an Error value. -/
inductive BRes (α : Type) where
  | ok (val : α)
  | err (msg : String)
  | assertFail (msg : String)
deriving DecidableEq, Repr

/-- Assoc-list model of std::collections::HashMap: lookup. -/
def alGet (k : Nat) : List (Nat × α) → Option α
  | [] => none
  | (k', v) :: t => if k' = k then some v else alGet k t

/-- Assoc-list model of HashMap::insert: replace the value at an existing key,
otherwise append the binding. -/
def alPut (k : Nat) (v : α) : List (Nat × α) → List (Nat × α)
  | [] => [(k, v)]
  | (k', v') :: t => if k' = k then (k, v) :: t else (k', v') :: alPut k v t

/-- Dir::add_entry: derive the entry's name from its path (which can fail) and
push a DirEnt onto the directory's entry list. -/
def Dir.add_entry (d : Dir) (name : Option Nat) (ino : Nat) : BRes Dir :=
  match name with
  | none => .err "no path"
  | some n => .ok { d with dir_list := d.dir_list ++ [⟨n, ino⟩] }

/-- Modelled from the spec: the content-defined chunker (mod fastcdc_fs, which
is not among the given sources). Its state is the byte stream not yet emitted
as a chunk. `step` performs a write followed by get_pending_chunks, mapping
the buffered stream to the newly completed chunks and the remaining buffer;
`flushChunks` performs finish() followed by a final drain. The rolling-hash
boundary algorithm is abstract, so both are parameters. -/
structure Chunker where
  step : List Byte → List (List Byte) × List Byte
  flushChunks : List Byte → List (List Byte)

/-- Contract of the chunker per the spec: completed chunks partition the byte
stream written so far (no bytes lost or invented), every emitted chunk is
non-empty, and finish flushes the whole remainder. -/
def Chunker.Lawful (c : Chunker) : Prop :=
  (∀ buf, ((c.step buf).1).flatten ++ (c.step buf).2 = buf) ∧
  (∀ buf ch, ch ∈ (c.step buf).1 → ch ≠ []) ∧
  (∀ buf, (c.flushChunks buf).flatten = buf) ∧
  (∀ buf ch, ch ∈ c.flushChunks buf → ch ≠ [])

/-- write_chunks_to_oci: store each completed chunk via oci.put_blob and turn
it into a FileChunk whose blob is an Other reference at offset 0 with the
chunk's written length. -/
def write_chunks_to_oci (chunks : List (List Byte)) : List FileChunk :=
  chunks.map fun data => ⟨⟨.Other data, 0⟩, data.length⟩

/-- merge_chunk_and_prev_files: drain prev_files into files, handing the
next pending file a chunk reference into the first chunk's blob at the running
offset `used` with the file's own size as length; return the BlobRef (same
digest, offset = total drained size) at which the currently streamed file's
bytes start. Errors when the first chunk's blob is not digest-addressed. -/
def merge_chunk_and_prev_files (first_chunk : FileChunk)
    (files prev_files : List File) : BRes (List File × List File × BlobRef) :=
  match first_chunk.blob.kind with
  | .Local => .err "bad blob type"
  | .Other first_digest =>
    let drained := prev_files.foldl
      (fun (acc : List File × Nat) p =>
        let blob : BlobRef := ⟨.Other first_digest, acc.2⟩
        let len := p.md.len
        (acc.1 ++ [{ p with chunk_list := p.chunk_list ++ [⟨blob, len⟩] }], acc.2 + len))
      (files, 0)
    .ok (drained.1, [], ⟨.Other first_digest, drained.2⟩)

/-- Chunk list of the file being streamed when a batch of chunks completed
(lines 236-245): the tail of the first chunk, at the offset returned by the
merge with length first.len - offset, followed by written_chunks.split_off(1)
in order. -/
def current_file_chunks (written_chunks : List FileChunk) (fixed_blob : BlobRef) :
    List FileChunk :=
  match written_chunks with
  | [] => []
  | first :: rest => ⟨fixed_blob, first.len - fixed_blob.offset⟩ :: rest

/-- Modelled from the spec: format::cbor_size_of_list_header, the byte length
of a CBOR array header for n elements (the format crate is not among the given
sources). -/
def cbor_size_of_list_header (n : Nat) : Nat :=
  if n < 24 then 1
  else if n < 2 ^ 8 then 2
  else if n < 2 ^ 16 then 3
  else if n < 2 ^ 32 then 5
  else 9

/-- Modelled from the spec: format::INODE_WIRE_SIZE, the fixed wire size of
one serialized inode record; the encoding is fixed-width per record, so only
the constant's existence matters, not its value. -/
def INODE_WIRE_SIZE : Nat := 64

/-- inode_encoded_size(num_inodes) from the source. -/
def inode_encoded_size (num_inodes : Nat) : Nat :=
  cbor_size_of_list_header num_inodes + num_inodes * INODE_WIRE_SIZE

/-- Modelled from the spec: the CBOR array header bytes for n elements (major
type 4 with the standard 0, 1, 2, 4 or 8 byte length argument). -/
def cbor_list_header (n : Nat) : List Byte :=
  if n < 24 then [0x80 + n]
  else if n < 2 ^ 8 then [0x98, n]
  else if n < 2 ^ 16 then [0x99, n / 2 ^ 8 % 2 ^ 8, n % 2 ^ 8]
  else if n < 2 ^ 32 then
    [0x9a, n / 2 ^ 24 % 2 ^ 8, n / 2 ^ 16 % 2 ^ 8, n / 2 ^ 8 % 2 ^ 8, n % 2 ^ 8]
  else
    [0x9b, n / 2 ^ 56 % 2 ^ 8, n / 2 ^ 48 % 2 ^ 8, n / 2 ^ 40 % 2 ^ 8,
      n / 2 ^ 32 % 2 ^ 8, n / 2 ^ 24 % 2 ^ 8, n / 2 ^ 16 % 2 ^ 8,
      n / 2 ^ 8 % 2 ^ 8, n % 2 ^ 8]

/-- Modelled from the spec: the fixed-width wire encoding of one inode record;
its length is INODE_WIRE_SIZE independently of the record's content. -/
def encode_inode (i : Inode) : List Byte :=
  List.replicate INODE_WIRE_SIZE (i.ino % 2 ^ 8)

/-- Modelled from the spec: serde_cbor serialization of a Vec of inode
records, a list header followed by the fixed-width records. -/
def encode_inode_table (inodes : List Inode) : List Byte :=
  cbor_list_header inodes.length ++ (inodes.map encode_inode).flatten

/-- Modelled from the spec: the external structured-record encoders
(serde_cbor::to_writer on dir-entry lists, extended metadata records and chunk
lists, and the inode table). Only their determinism is load-bearing for the
layout, so they are parameters of the layout stage. -/
structure Enc where
  dirList : List DirEnt → List Byte
  additional : InodeAdditional → List Byte
  chunkList : List FileChunk → List Byte
  inodes : List Inode → List Byte

/-- One walkdir entry as the builder consumes it: the path's file-name
component, the host inode of the parent directory (as looked up through
fs::symlink_metadata(parent_path)), the entry's own metadata, the content
bytes that fs::File::open + io::copy stream for a regular file, and the
extended metadata that InodeAdditional::new extracts. -/
structure WalkEntry where
  name : Option Nat
  parent : Option Nat
  md : Metadata
  content : List Byte
  additional : Option InodeAdditional
deriving DecidableEq, Repr

/-- Mutable state of build_initial_rootfs during the walk. -/
structure BuildState where
  dirs : List (Nat × Dir)
  files : List File
  pfs_inodes : List Inode
  host_to_pfs : List (Nat × Nat)
  cur_ino : Nat
  buffer : List Byte
  prev_files : List File
deriving DecidableEq, Repr

/-- State at the top of build_initial_rootfs: empty collections, cur_ino = 1,
an empty chunker. -/
def initState : BuildState := ⟨[], [], [], [], 1, [], []⟩

/-- First half of the walk loop body (lines 177-201): for every entry except
the very first (cur_ino = 1), append a DirEnt to the parent directory's
accumulator, reusing the already assigned ino if the host inode was seen
before. Returns the updated state and whether the entry must still be
rendered; false exactly for hard-link repeats, which the loop skips. -/
def link_parent (st : BuildState) (e : WalkEntry) : BRes (BuildState × Bool) :=
  if st.cur_ino = 1 then .ok (st, true)
  else
    let the_ino := (alGet e.md.ino st.host_to_pfs).getD st.cur_ino
    match e.parent with
    | none => .err "no parent"
    | some parent_ino =>
      match alGet parent_ino st.dirs with
      | none => .err "no pfs inode"
      | some parent =>
        match parent.add_entry e.name the_ino with
        | .err m => .err m
        | .assertFail m => .assertFail m
        | .ok parent' =>
          .ok ({ st with dirs := alPut parent_ino parent' st.dirs },
            (alGet e.md.ino st.host_to_pfs).isNone)

/-- Second half of the walk loop body (lines 203-250): record the host-to-pfs
ino mapping and render the entry by kind. A directory gets a fresh empty Dir
accumulator; a regular file is streamed through the chunker and either joins
prev_files (no completed chunk) or triggers the merge of the completed batch.
On the merge path the source computes the streamed file's own chunk list but
pushes the File accumulator nowhere, so it is dropped; the unused binding
mirrors that. An Other entity is rendered immediately, passing None for its
additional metadata (the TODO on line 248). -/
def render_entry (c : Chunker) (st : BuildState) (e : WalkEntry) : BRes BuildState :=
  let st1 := { st with host_to_pfs := alPut e.md.ino st.cur_ino st.host_to_pfs }
  match e.md.kind with
  | .dir =>
    .ok { st1 with dirs := alPut e.md.ino ⟨st1.cur_ino, [], e.md, e.additional⟩ st1.dirs }
  | .file =>
    let stepRes := c.step (st1.buffer ++ e.content)
    let written_chunks := write_chunks_to_oci stepRes.1
    let file : File := ⟨st1.cur_ino, [], e.md, e.additional⟩
    match written_chunks with
    | [] => .ok { st1 with buffer := stepRes.2, prev_files := st1.prev_files ++ [file] }
    | first :: _ =>
      match merge_chunk_and_prev_files first st1.files st1.prev_files with
      | .err m => .err m
      | .assertFail m => .assertFail m
      | .ok (files', prev', fixed_blob) =>
        let _dropped : File :=
          { file with chunk_list := current_file_chunks written_chunks fixed_blob }
        .ok { st1 with buffer := stepRes.2, files := files', prev_files := prev' }
  | .other =>
    .ok { st1 with
      pfs_inodes := st1.pfs_inodes ++ [Inode.new_other st1.cur_ino e.md none] }

/-- One iteration of the walk loop: link into the parent, then render unless
the entry is a hard-link repeat; cur_ino advances only when an entity was
rendered. -/
def process_entry (c : Chunker) (st : BuildState) (e : WalkEntry) : BRes BuildState :=
  match link_parent st e with
  | .err m => .err m
  | .assertFail m => .assertFail m
  | .ok (st1, fresh) =>
    if fresh then
      match render_entry c st1 e with
      | .err m => .err m
      | .assertFail m => .assertFail m
      | .ok st2 => .ok { st2 with cur_ino := st2.cur_ino + 1 }
    else .ok st1

/-- The whole walk loop over the entries the walker yields. -/
def process_entries (c : Chunker) : BuildState → List WalkEntry → BRes BuildState
  | st, [] => .ok st
  | st, e :: rest =>
    match process_entry c st e with
    | .ok st' => process_entries c st' rest
    | .err m => .err m
    | .assertFail m => .assertFail m

/-- Post-walk flush (lines 255-268): finish the chunker, store the flushed
chunks, check the two emptiness assertions, and, if a chunk was flushed, merge
it with the pending files, asserting that the flushed byte count equals the
total size attributed to them. -/
def finish_build (c : Chunker) (st : BuildState) : BRes BuildState :=
  let written_chunks := write_chunks_to_oci (c.flushChunks st.buffer)
  let leftover := (written_chunks.map FileChunk.len).sum
  if !(written_chunks.isEmpty || !st.prev_files.isEmpty) then
    .assertFail "written chunks but no pending files"
  else if !(!written_chunks.isEmpty || st.prev_files.isEmpty) then
    .assertFail "pending files but no written chunks"
  else
    match written_chunks with
    | [] => .ok st
    | first :: _ =>
      match merge_chunk_and_prev_files first st.files st.prev_files with
      | .err m => .err m
      | .assertFail m => .assertFail m
      | .ok (files', prev', fixed_blob) =>
        if leftover = fixed_blob.offset then
          .ok { st with files := files', prev_files := prev', buffer := [] }
        else .assertFail "leftover differs from merged offset"

/-- HashMap::values followed by sort_by on ino (lines 278-282). -/
def sort_dirs (ds : List Dir) : List Dir :=
  List.insertionSort (fun a b => a.ino ≤ b.ino) ds

/-- Directory rendering (lines 284-311): serialize each directory's entry list
and optional extended metadata at the running global offset (base starts at
inodes_serial_size and advances by the bytes already serialized), producing
the directory region and the dir inode records in order. -/
def render_dirs (enc : Enc) (base : Nat) : List Dir → List Byte × List Inode
  | [] => ([], [])
  | d :: rest =>
    let ents := enc.dirList d.dir_list
    let addRes : List Byte × Option BlobRef :=
      match d.additional with
      | none => ([], none)
      | some a => (enc.additional a, some ⟨.Local, base + ents.length⟩)
    let ino := Inode.new_dir d.ino d.md base addRes.2
    let restRes := render_dirs enc (base + ents.length + addRes.1.length) rest
    (ents ++ addRes.1 ++ restRes.1, ino :: restRes.2)

/-- File rendering (lines 313-342): same scheme over the finalized files in
order, base starting at inodes_serial_size + dir_buf.len(). -/
def render_files (enc : Enc) (base : Nat) : List File → List Byte × List Inode
  | [] => ([], [])
  | f :: rest =>
    let chunks := enc.chunkList f.chunk_list
    let addRes : List Byte × Option BlobRef :=
      match f.additional with
      | none => ([], none)
      | some a => (enc.additional a, some ⟨.Local, base + chunks.length⟩)
    let ino := Inode.new_file f.ino f.md base addRes.2
    let restRes := render_files enc (base + chunks.length + addRes.1.length) rest
    (chunks ++ addRes.1 ++ restRes.1, ino :: restRes.2)

/-- Layout stage (lines 270-360): precompute the inode table size from the
total entity count, render directories in ascending ino order and then files
in finalize order, serialize the inode table asserting that its length equals
the precomputed size, concatenate table, directory region and file region into
the metadata blob, store it, and wrap its digest. Returns the final inode
records and the metadata blob besides the Rootfs. -/
def layout (enc : Enc) (st : BuildState) : BRes (List Inode × List Byte × Rootfs) :=
  let num_inodes := st.pfs_inodes.length + st.dirs.length + st.files.length
  let inodes_serial_size := inode_encoded_size num_inodes
  let ordered_dirs := sort_dirs (st.dirs.map Prod.snd)
  let dr := render_dirs enc inodes_serial_size ordered_dirs
  let fr := render_files enc (inodes_serial_size + dr.1.length) st.files
  let all_inodes := st.pfs_inodes ++ dr.2 ++ fr.2
  let md_buf := enc.inodes all_inodes
  if md_buf.length = inodes_serial_size then
    let full := md_buf ++ dr.1 ++ fr.1
    .ok (all_inodes, full, ⟨[⟨.Other full, 0⟩]⟩)
  else .assertFail "inode table length differs from inode_encoded_size"

/-- build_initial_rootfs staged to expose the final inode records and the
metadata blob along with the returned Rootfs. -/
def build_image (c : Chunker) (enc : Enc) (entries : List WalkEntry) :
    BRes (List Inode × List Byte × Rootfs) :=
  match process_entries c initState entries with
  | .err m => .err m
  | .assertFail m => .assertFail m
  | .ok st =>
    match finish_build c st with
    | .err m => .err m
    | .assertFail m => .assertFail m
    | .ok st' => layout enc st'

/-- build_initial_rootfs(rootfs, oci): the entry list stands for the stream
walker(rootfs) yields. -/
def build_initial_rootfs (c : Chunker) (enc : Enc) (entries : List WalkEntry) :
    BRes Rootfs :=
  match build_image c enc entries with
  | .ok out => .ok out.2.2
  | .err m => .err m
  | .assertFail m => .assertFail m

/-- A host filesystem tree: directories with named children, regular files
with content, and Other entities (symlinks, devices, fifos, sockets). Hard
links appear as several positions carrying the same host inode number. -/
inductive FsNode where
  | dir (hostIno : Nat) (additional : Option InodeAdditional)
      (children : List (Nat × FsNode))
  | file (hostIno : Nat) (additional : Option InodeAdditional) (content : List Byte)
  | other (hostIno : Nat) (additional : Option InodeAdditional)

/-- Host inode number of a node. -/
def FsNode.hostIno : FsNode → Nat
  | .dir h _ _ => h
  | .file h _ _ => h
  | .other h _ => h

/-- The fs::Metadata the walker reads for a node; a regular file's size is the
length of its content. -/
def FsNode.meta : FsNode → Metadata
  | .dir h _ _ => ⟨h, .dir, 0⟩
  | .file h _ c => ⟨h, .file, c.length⟩
  | .other h _ => ⟨h, .other, 0⟩

/-- Content bytes streamed for a node (empty except for regular files). -/
def FsNode.contentOf : FsNode → List Byte
  | .file _ _ c => c
  | _ => []

/-- Extended metadata extracted for a node. -/
def FsNode.addOf : FsNode → Option InodeAdditional
  | .dir _ a _ => a
  | .file _ a _ => a
  | .other _ a => a

/-- The walkdir entry for the root of a subtree with the given name, below the
directory with the given host inode. -/
def mkEntry (parent : Option Nat) (name : Nat) (t : FsNode) : WalkEntry :=
  ⟨some name, parent, t.meta, t.contentOf, t.addOf⟩

/-- WalkDir::sort_by on file names: siblings are visited in name order. -/
def sortChildren (cs : List (Nat × FsNode)) : List (Nat × FsNode) :=
  List.insertionSort (fun a b => a.1 ≤ b.1) cs

/-- walker(rootfs): a single depth-first pass, every directory before its
contents, siblings in name order, symlinks not followed. -/
def walkNode (parent : Option Nat) (name : Nat) : FsNode → List WalkEntry
  | .file h a cont => [mkEntry parent name (.file h a cont)]
  | .other h a => [mkEntry parent name (.other h a)]
  | .dir h a cs =>
    mkEntry parent name (.dir h a cs) ::
      ((sortChildren cs).attach.map fun x => walkNode (some h) x.1.1 x.1.2).flatten
termination_by t => sizeOf t
decreasing_by
  have hmem : x.1 ∈ cs := by
    have := x.2
    simpa [sortChildren, List.mem_insertionSort] using this
  have h1 : sizeOf x.1 < sizeOf cs := List.sizeOf_lt_of_mem hmem
  have h2 : sizeOf x.1.2 < sizeOf x.1 := by
    obtain ⟨a, b⟩ := x.1
    simp
  simp
  omega

/-- build_initial_rootfs on a host tree: run the loop over the walker's
entries, then flush and lay out. -/
def build_tree (c : Chunker) (enc : Enc) (rootName : Nat) (t : FsNode) : BRes Rootfs :=
  build_initial_rootfs c enc (walkNode none rootName t)

/-- Modelled from the spec: one concrete instance of the external encoders;
the inode table uses the fixed-width encoding, the variable-length payloads a
simple length-tagged dump. Used to instantiate theorems that hold for every
encoder. -/
def specEnc : Enc where
  dirList l := l.length :: (l.map fun d => [d.name, d.ino]).flatten
  additional a := [a]
  chunkList l := l.length :: (l.map fun ch => [ch.blob.offset, ch.len]).flatten
  inodes := encode_inode_table

/-- Reference reformulation of the merge's drain, used to state what the
foldl computes: the pending file at position i receives one chunk reference
into the first chunk's blob at the running offset. -/
def attribute_pending (digest : Digest) (used : Nat) : List File → List File
  | [] => []
  | p :: rest =>
    { p with chunk_list := p.chunk_list ++ [⟨⟨.Other digest, used⟩, p.md.len⟩] } ::
      attribute_pending digest (used + p.md.len) rest

/-- A chunker that never cuts during the walk and flushes the remainder as
one chunk: a lawful instance used to instantiate theorems. -/
def noCutChunker : Chunker :=
  ⟨fun buf => ([], buf), fun buf => if buf.isEmpty then [] else [buf]⟩

/-- Bytes one directory contributes to the directory region: its encoded
entry list, then its encoded extended metadata when present. -/
def dirBytes (enc : Enc) (d : Dir) : List Byte :=
  enc.dirList d.dir_list ++
    (match d.additional with
     | none => []
     | some a => enc.additional a)

/-- Bytes one file contributes to the file region. -/
def fileBytes (enc : Enc) (f : File) : List Byte :=
  enc.chunkList f.chunk_list ++
    (match f.additional with
     | none => []
     | some a => enc.additional a)

/-- The entity count and precomputed table size of the layout stage. -/
def layout_table_size (st : BuildState) : Nat :=
  inode_encoded_size (st.pfs_inodes.length + st.dirs.length + st.files.length)

/-- The directory accumulators in ascending ino order, as the layout visits
them. -/
def ordered_dirs (st : BuildState) : List Dir :=
  sort_dirs (st.dirs.map Prod.snd)

/-- The directory region of the metadata blob. -/
def dir_region (enc : Enc) (st : BuildState) : List Byte :=
  ((ordered_dirs st).map (dirBytes enc)).flatten

/-- The file region of the metadata blob. -/
def file_region (enc : Enc) (st : BuildState) : List Byte :=
  (st.files.map (fileBytes enc)).flatten

/-- A small concrete post-walk state: one directory (ino 1) holding one file
(ino 2) with a single chunk. -/
def layoutExSt : BuildState :=
  ⟨[(3, ⟨1, [⟨4, 2⟩], ⟨3, .dir, 0⟩, none⟩)],
   [⟨2, [⟨⟨.Other [9], 0⟩, 1⟩], ⟨4, .file, 1⟩, none⟩],
   [], [(3, 1), (4, 2)], 3, [], []⟩

/-- The inode records the layout produces for layoutExSt. -/
def layoutExInodes : List Inode :=
  [Inode.new_dir 1 ⟨3, .dir, 0⟩ 129 none, Inode.new_file 2 ⟨4, .file, 1⟩ 132 none]

/-- The metadata blob the layout produces for layoutExSt. -/
def layoutExBlob : List Byte :=
  encode_inode_table layoutExInodes ++ [1, 4, 2] ++ [1, 0, 1]

/-- A post-walk state whose inode table comes out unsorted: one Other entity
with ino 2 rendered during the walk, directories ino 1 and ino 3. -/
def unsortedExSt : BuildState :=
  ⟨[(11, ⟨1, [], ⟨11, .dir, 0⟩, none⟩), (12, ⟨3, [], ⟨12, .dir, 0⟩, none⟩)],
   [], [Inode.new_other 2 ⟨13, .other, 0⟩ none],
   [(11, 1), (13, 2), (12, 3)], 4, [], []⟩

/-- A tree with one empty regular file below the root. -/
def c10Tree : FsNode := .dir 1 none [(5, .file 2 none [])]

/-- A tree with two empty regular files below the root. -/
def c2Tree : FsNode := .dir 1 none [(3, .file 2 none []), (4, .file 3 none [])]

/-- A tree with one 4-byte regular file below the root. -/
def c1Tree : FsNode := .dir 1 none [(5, .file 2 none [1, 2, 3, 4])]

/-- A lawful chunker that emits the buffered stream as one completed chunk as
soon as it holds at least 4 bytes, and flushes the remainder on finish. -/
def cut4 : Chunker :=
  ⟨fun buf => if 4 ≤ buf.length then ([buf], []) else ([], buf),
   fun buf => if buf.isEmpty then [] else [buf]⟩

/-- A directory node (host inode and children list) occurring somewhere in a
tree. -/
inductive DirNode : FsNode → Nat → List (Nat × FsNode) → Prop where
  | here (h : Nat) (a : Option InodeAdditional) (cs : List (Nat × FsNode)) :
      DirNode (.dir h a cs) h cs
  | child {h : Nat} {a : Option InodeAdditional}
      {cs : List (Nat × FsNode)} {x : Nat × FsNode} {h' : Nat}
      {cs' : List (Nat × FsNode)} :
      x ∈ cs → DirNode x.2 h' cs' → DirNode (.dir h a cs) h' cs'

/-- Invariant tying the two maps: every host inode with a directory
accumulator is already in the hard-link map (both are inserted together). -/
def StInv (st : BuildState) : Prop :=
  ∀ k, (alGet k st.dirs).isSome → (alGet k st.host_to_pfs).isSome

/-- A root directory with two children given in unsorted name order. -/
def c7Tree : FsNode := .dir 1 none [(7, .file 2 none []), (3, .other 4 none)]

/-!  ## Theorems -/

/-- Unfolding the walker at a directory: the directory's own entry, then the
walks of its children in name order. -/
theorem walkNode_dir (p : Option Nat) (name h : Nat) (a : Option InodeAdditional)
    (cs : List (Nat × FsNode)) :
    walkNode p name (.dir h a cs) =
      mkEntry p name (.dir h a cs) ::
        ((sortChildren cs).map fun x => walkNode (some h) x.1 x.2).flatten := by
  rw [walkNode]
  congr 1
  congr 1
  exact List.attach_map_val (sortChildren cs) (fun x => walkNode (some h) x.1 x.2)

/-- Unfolding the walker at a regular file. -/
theorem walkNode_file (p : Option Nat) (name h : Nat) (a : Option InodeAdditional)
    (cont : List Byte) :
    walkNode p name (.file h a cont) = [mkEntry p name (.file h a cont)] := by
  rw [walkNode]

/-- Unfolding the walker at an Other entity. -/
theorem walkNode_other (p : Option Nat) (name h : Nat) (a : Option InodeAdditional) :
    walkNode p name (.other h a) = [mkEntry p name (.other h a)] := by
  rw [walkNode]

/-- The CBOR array header really has the precomputed header size. -/
theorem cbor_list_header_length (n : Nat) :
    (cbor_list_header n).length = cbor_size_of_list_header n := by
  unfold cbor_list_header cbor_size_of_list_header
  split <;> simp_all
  split <;> simp_all
  split <;> simp_all
  split <;> simp_all

/-- Each encoded inode record has the fixed wire size. -/
theorem encode_inode_length (i : Inode) : (encode_inode i).length = INODE_WIRE_SIZE := by
  simp [encode_inode]

/-- Length of the encoded inode table, as a reusable lemma. -/
theorem encode_inode_table_length (inodes : List Inode) :
    (encode_inode_table inodes).length = inode_encoded_size inodes.length := by
  simp [encode_inode_table, inode_encoded_size, cbor_list_header_length,
    List.length_flatten, List.map_map]
  have : (List.map (List.length ∘ encode_inode) inodes) =
      List.map (fun _ => INODE_WIRE_SIZE) inodes := by
    apply List.map_congr_left
    intro i _
    simp [Function.comp, encode_inode_length]
  rw [this]
  simp [List.map_const']

theorem attribute_pending_length (digest : Digest) (used : Nat) (pfs : List File) :
    (attribute_pending digest used pfs).length = pfs.length := by
  induction pfs generalizing used with
  | nil => simp [attribute_pending]
  | cons p rest ih => simp [attribute_pending, ih]

theorem merge_foldl (digest : Digest) (pfs : List File) :
    ∀ (files : List File) (used : Nat),
      pfs.foldl
        (fun (acc : List File × Nat) p =>
          (acc.1 ++ [{ p with chunk_list :=
              p.chunk_list ++ [⟨⟨.Other digest, acc.2⟩, p.md.len⟩] }], acc.2 + p.md.len))
        (files, used) =
      (files ++ attribute_pending digest used pfs,
        used + (pfs.map (fun p => p.md.len)).sum) := by
  induction pfs with
  | nil => simp [attribute_pending]
  | cons p rest ih =>
    intro files used
    simp only [List.foldl_cons, attribute_pending, ih]
    simp [List.map_cons, List.sum_cons]
    omega

theorem merge_spec (fc : FileChunk) (digest : Digest) (h : fc.blob.kind = .Other digest)
    (files pfs : List File) :
    merge_chunk_and_prev_files fc files pfs =
      .ok (files ++ attribute_pending digest 0 pfs, [],
        ⟨.Other digest, (pfs.map (fun p => p.md.len)).sum⟩) := by
  unfold merge_chunk_and_prev_files
  rw [h]
  simp [merge_foldl]

theorem attribute_pending_getElem (digest : Digest) (used : Nat) (pfs : List File)
    (i : Nat) :
    (attribute_pending digest used pfs)[i]? =
      (pfs[i]?).map (fun p =>
        { p with chunk_list := p.chunk_list ++
            [⟨⟨.Other digest, used + ((pfs.take i).map (fun q => q.md.len)).sum⟩,
              p.md.len⟩] }) := by
  induction pfs generalizing used i with
  | nil => simp [attribute_pending]
  | cons p rest ih =>
    cases i with
    | zero => simp [attribute_pending]
    | succ j =>
      simp only [attribute_pending, List.getElem?_cons_succ, List.take_succ_cons,
        List.map_cons, List.sum_cons]
      rw [ih (used + p.md.len) j]
      simp [Nat.add_assoc]

/-- C3: when a batch of completed chunks arrives while a file is being
streamed, the first chunk is attributed as follows: the i-th Pending-File
Queue entry, in queue order, receives a chunk reference into the first
chunk's blob at the cumulative offset with its total byte size as length and
moves into the finalized set, the queue becomes empty; the streamed file
receives a reference at offset used with length chunk_length - used; every
later chunk of the batch goes entirely to the streamed file, appended in
order. -/
theorem chunk_attribution_first_and_rest
    (fc : FileChunk) (digest : Digest) (files pfs : List File) (rest : List FileChunk)
    (h : fc.blob.kind = .Other digest) :
    ∃ out fixed_blob,
      merge_chunk_and_prev_files fc files pfs = .ok (out, [], fixed_blob) ∧
      fixed_blob = ⟨.Other digest, (pfs.map (fun p => p.md.len)).sum⟩ ∧
      out.length = files.length + pfs.length ∧
      (∀ i, i < files.length → out[i]? = files[i]?) ∧
      (∀ i, out[files.length + i]? = (pfs[i]?).map (fun p =>
        { p with chunk_list := p.chunk_list ++
            [⟨⟨.Other digest, ((pfs.take i).map (fun q => q.md.len)).sum⟩,
              p.md.len⟩] })) ∧
      current_file_chunks (fc :: rest) fixed_blob =
        ⟨fixed_blob, fc.len - (pfs.map (fun p => p.md.len)).sum⟩ :: rest := by
  refine ⟨files ++ attribute_pending digest 0 pfs,
    ⟨.Other digest, (pfs.map (fun p => p.md.len)).sum⟩,
    merge_spec fc digest h files pfs, rfl, ?_, ?_, ?_, ?_⟩
  · simp [attribute_pending_length]
  · intro i hi
    simp [List.getElem?_append, hi]
  · intro i
    rw [List.getElem?_append_right (by omega)]
    have := attribute_pending_getElem digest 0 pfs i
    simpa using this
  · simp [current_file_chunks]

/-- Concrete instance of the attribution theorem. -/
theorem chunk_attribution_witness :
    ∃ out fixed_blob,
      merge_chunk_and_prev_files ⟨⟨.Other [5, 6], 0⟩, 2⟩ []
        [⟨7, [], ⟨3, .file, 2⟩, none⟩] = .ok (out, [], fixed_blob) :=
  match chunk_attribution_first_and_rest ⟨⟨.Other [5, 6], 0⟩, 2⟩ [5, 6] []
      [⟨7, [], ⟨3, .file, 2⟩, none⟩] [] rfl with
  | ⟨out, fb, hmerge, _⟩ => ⟨out, fb, hmerge⟩

theorem alGet_put_self (k : Nat) (v : α) (m : List (Nat × α)) :
    alGet k (alPut k v m) = some v := by
  induction m with
  | nil => simp [alGet, alPut]
  | cons h t ih =>
    obtain ⟨k', v'⟩ := h
    by_cases hk : k' = k <;> simp [alGet, alPut, hk, ih]

theorem alGet_put_other (k k' : Nat) (v : α) (m : List (Nat × α)) (hne : k' ≠ k) :
    alGet k' (alPut k v m) = alGet k' m := by
  have hne' : ¬(k = k') := fun h => hne h.symm
  induction m with
  | nil => simp [alGet, alPut, hne']
  | cons hd t ih =>
    obtain ⟨k0, v0⟩ := hd
    by_cases hk : k0 = k
    · subst hk
      simp [alGet, alPut, hne']
    · simp [alGet, alPut, hk, ih]
/-- What a successful link_parent run does: all state except dirs is
untouched, the freshness flag is false exactly for a detected hard link, and
the dirs component either stays (first entry) or gains one DirEnt at the
parent. -/
theorem link_parent_ok (st : BuildState) (e : WalkEntry) (st1 : BuildState)
    (fresh : Bool) (h : link_parent st e = .ok (st1, fresh)) :
    st1.host_to_pfs = st.host_to_pfs ∧
    st1.cur_ino = st.cur_ino ∧
    st1.files = st.files ∧
    st1.prev_files = st.prev_files ∧
    st1.buffer = st.buffer ∧
    st1.pfs_inodes = st.pfs_inodes ∧
    (fresh = false ↔ (st.cur_ino ≠ 1 ∧ (alGet e.md.ino st.host_to_pfs).isSome)) ∧
    ((st.cur_ino = 1 ∧ st1 = st) ∨
      (st.cur_ino ≠ 1 ∧ ∃ parent_ino D nm,
        e.parent = some parent_ino ∧
        alGet parent_ino st.dirs = some D ∧
        e.name = some nm ∧
        st1.dirs = alPut parent_ino
          { D with dir_list := D.dir_list ++
              [⟨nm, (alGet e.md.ino st.host_to_pfs).getD st.cur_ino⟩] } st.dirs)) := by
  unfold link_parent at h
  by_cases h1 : st.cur_ino = 1
  · rw [if_pos h1] at h
    injection h with h
    injection h with h hf
    subst h hf
    simp [h1]
  · rw [if_neg h1] at h
    cases hp : e.parent with
    | none => rw [hp] at h; exact absurd h (by simp)
    | some parent_ino =>
      rw [hp] at h
      dsimp only at h
      cases hd : alGet parent_ino st.dirs with
      | none => rw [hd] at h; exact absurd h (by simp)
      | some D =>
        rw [hd] at h
        dsimp only at h
        cases hn : e.name with
        | none => rw [Dir.add_entry.eq_def, hn] at h; exact absurd h (by simp)
        | some nm =>
          rw [Dir.add_entry.eq_def, hn] at h
          simp only [] at h
          injection h with h
          injection h with h hf
          subst h hf
          refine ⟨rfl, rfl, rfl, rfl, rfl, rfl, ?_, ?_⟩
          · simp [h1, Option.isNone_iff_eq_none, Option.isSome_iff_ne_none]
          · exact Or.inr ⟨h1, parent_ino, D, nm, rfl, hd, rfl, rfl⟩
/-- What a successful render_entry run does, by entity kind. -/
theorem render_entry_ok (c : Chunker) (st : BuildState) (e : WalkEntry)
    (st2 : BuildState) (h : render_entry c st e = .ok st2) :
    st2.host_to_pfs = alPut e.md.ino st.cur_ino st.host_to_pfs ∧
    st2.cur_ino = st.cur_ino ∧
    (e.md.kind = .dir →
      st2.dirs = alPut e.md.ino ⟨st.cur_ino, [], e.md, e.additional⟩ st.dirs ∧
      st2.pfs_inodes = st.pfs_inodes ∧ st2.files = st.files ∧
      st2.prev_files = st.prev_files ∧ st2.buffer = st.buffer) ∧
    (e.md.kind ≠ .dir → st2.dirs = st.dirs) ∧
    (e.md.kind = .other →
      st2.pfs_inodes = st.pfs_inodes ++ [Inode.new_other st.cur_ino e.md none] ∧
      st2.files = st.files ∧ st2.prev_files = st.prev_files ∧
      st2.buffer = st.buffer) ∧
    (e.md.kind = .file →
      st2.pfs_inodes = st.pfs_inodes ∧
      st2.buffer = (c.step (st.buffer ++ e.content)).2 ∧
      ((c.step (st.buffer ++ e.content)).1 = [] →
        st2.files = st.files ∧
        st2.prev_files = st.prev_files ++ [⟨st.cur_ino, [], e.md, e.additional⟩]) ∧
      ((c.step (st.buffer ++ e.content)).1 ≠ [] → st2.prev_files = [])) := by
  unfold render_entry at h
  cases hk : e.md.kind <;> rw [hk] at h <;> dsimp only at h
  · injection h with h
    subst h
    simp [hk]
  · cases hc : (c.step (st.buffer ++ e.content)).1 with
    | nil =>
      rw [write_chunks_to_oci, hc] at h
      dsimp only [List.map] at h
      injection h with h
      subst h
      simp [hk, hc, write_chunks_to_oci]
    | cons ch rest =>
      rw [write_chunks_to_oci, hc] at h
      dsimp only [List.map] at h
      cases hm : merge_chunk_and_prev_files ⟨⟨.Other ch, 0⟩, ch.length⟩ st.files
          st.prev_files with
      | err m => rw [hm] at h; exact absurd h (by simp)
      | assertFail m => rw [hm] at h; exact absurd h (by simp)
      | ok out =>
        obtain ⟨files', prev', fixed⟩ := out
        rw [hm] at h
        dsimp only at h
        injection h with h
        subst h
        obtain ⟨digest, hdig⟩ : ∃ d, (⟨⟨.Other ch, 0⟩, ch.length⟩ : FileChunk).blob.kind
            = .Other d := ⟨ch, rfl⟩
        have hms := merge_spec _ _ hdig st.files st.prev_files
        rw [hms] at hm
        simp only [BRes.ok.injEq, Prod.mk.injEq] at hm
        obtain ⟨h1, h2, h3⟩ := hm
        simp [hk, hc, write_chunks_to_oci, ← h2]
  · injection h with h
    subst h
    simp [hk]
/-- A successful loop iteration either skipped a hard link after linking it
into its parent, or linked and rendered a fresh entity and advanced cur_ino. -/
theorem process_entry_ok_cases (c : Chunker) (st : BuildState) (e : WalkEntry)
    (st' : BuildState) (h : process_entry c st e = .ok st') :
    (∃ st1, link_parent st e = .ok (st1, false) ∧ st' = st1) ∨
    (∃ st1 st2, link_parent st e = .ok (st1, true) ∧ render_entry c st1 e = .ok st2 ∧
      st' = { st2 with cur_ino := st2.cur_ino + 1 }) := by
  unfold process_entry at h
  cases hl : link_parent st e with
  | err m => rw [hl] at h; exact absurd h (by simp)
  | assertFail m => rw [hl] at h; exact absurd h (by simp)
  | ok pair =>
    obtain ⟨st1, fresh⟩ := pair
    rw [hl] at h
    dsimp only at h
    cases fresh with
    | false =>
      rw [if_neg (by simp)] at h
      injection h with h
      subst h
      exact Or.inl ⟨st1, rfl, rfl⟩
    | true =>
      rw [if_pos rfl] at h
      cases hr : render_entry c st1 e with
      | err m => rw [hr] at h; exact absurd h (by simp)
      | assertFail m => rw [hr] at h; exact absurd h (by simp)
      | ok st2 =>
        rw [hr] at h
        dsimp only at h
        injection h with h
        subst h
        exact Or.inr ⟨st1, st2, rfl, hr, rfl⟩
/-- C9: an Other entity's finalized inode record carries no extended-metadata
reference even when host metadata extraction produced one. -/
theorem other_inode_drops_additional (c : Chunker) (st : BuildState) (e : WalkEntry)
    (a : InodeAdditional) (hk : e.md.kind = .other) (_ha : e.additional = some a) :
    render_entry c st e = .ok { st with
      host_to_pfs := alPut e.md.ino st.cur_ino st.host_to_pfs,
      pfs_inodes := st.pfs_inodes ++ [Inode.new_other st.cur_ino e.md none] } := by
  unfold render_entry
  rw [hk]

/-- Concrete instance of the Other-entity theorem. -/
theorem other_inode_drops_additional_witness :
    render_entry ⟨fun b => ([], b), fun b => [b]⟩ initState
      ⟨some 3, none, ⟨9, .other, 0⟩, [], some 5⟩ = .ok { initState with
        host_to_pfs := alPut 9 1 [],
        pfs_inodes := [Inode.new_other 1 ⟨9, .other, 0⟩ none] } :=
  other_inode_drops_additional ⟨fun b => ([], b), fun b => [b]⟩ initState
    ⟨some 3, none, ⟨9, .other, 0⟩, [], some 5⟩ 5 rfl rfl
/-- C4: host-inode resolution. Every walk yields its root as first entry and
processing a first entry (cur_ino = 1) maps its host inode to Ino 1; a
hard-link repeat (host inode already mapped) only appends a directory entry
carrying the existing Ino to its parent's entry list, with no new
accumulator, inode record, content read or ino assignment; a fresh entry is
assigned the next sequential ino and recorded; an established mapping is
never changed. -/
theorem hard_link_resolution :
    (∀ (p : Option Nat) (n : Nat) (t : FsNode),
      (walkNode p n t).head? = some (mkEntry p n t)) ∧
    (∀ (c : Chunker) (e : WalkEntry) (st' : BuildState),
      process_entry c initState e = .ok st' →
      alGet e.md.ino st'.host_to_pfs = some 1) ∧
    (∀ (c : Chunker) (st : BuildState) (e : WalkEntry) (i : Nat) (parent_ino : Nat)
      (D : Dir) (nm : Nat),
      st.cur_ino ≠ 1 →
      alGet e.md.ino st.host_to_pfs = some i →
      e.parent = some parent_ino →
      alGet parent_ino st.dirs = some D →
      e.name = some nm →
      process_entry c st e = .ok { st with
        dirs := alPut parent_ino
          { D with dir_list := D.dir_list ++ [⟨nm, i⟩] } st.dirs }) ∧
    (∀ (c : Chunker) (st : BuildState) (e : WalkEntry) (st' : BuildState),
      alGet e.md.ino st.host_to_pfs = none →
      process_entry c st e = .ok st' →
      st'.cur_ino = st.cur_ino + 1 ∧
      alGet e.md.ino st'.host_to_pfs = some st.cur_ino) ∧
    (∀ (c : Chunker) (st : BuildState) (e : WalkEntry) (st' : BuildState) (k v : Nat),
      st.cur_ino ≠ 1 →
      alGet k st.host_to_pfs = some v →
      process_entry c st e = .ok st' →
      alGet k st'.host_to_pfs = some v) := by
  refine ⟨?_, ?_, ?_, ?_, ?_⟩
  · intro p n t
    cases t <;> rw [walkNode] <;> simp
  · intro c e st' hok
    rcases process_entry_ok_cases c initState e st' hok with
      ⟨st1, hl, hs⟩ | ⟨st1, st2, hl, hr, hs⟩
    · obtain ⟨_, _, _, _, _, _, hiff, _⟩ := link_parent_ok initState e st1 false hl
      exact absurd ((hiff.mp rfl).1) (by simp [initState])
    · obtain ⟨hmap1, hino1, _, _, _, _, _, _⟩ := link_parent_ok initState e st1 true hl
      obtain ⟨hmap2, _⟩ := render_entry_ok c st1 e st2 hr
      subst hs
      show alGet e.md.ino st2.host_to_pfs = some 1
      rw [hmap2, hino1, hmap1]
      simpa [initState] using alGet_put_self e.md.ino 1 []
  · intro c st e i parent_ino D nm hne hmap hp hd hn
    unfold process_entry link_parent
    simp [hne, hmap, hp, hd, hn, Dir.add_entry]
  · intro c st e st' hnone hok
    rcases process_entry_ok_cases c st e st' hok with
      ⟨st1, hl, hs⟩ | ⟨st1, st2, hl, hr, hs⟩
    · obtain ⟨_, _, _, _, _, _, hiff, _⟩ := link_parent_ok st e st1 false hl
      have := (hiff.mp rfl).2
      rw [hnone] at this
      simp at this
    · obtain ⟨hmap1, hino1, _, _, _, _, _, _⟩ := link_parent_ok st e st1 true hl
      obtain ⟨hmap2, hino2, _⟩ := render_entry_ok c st1 e st2 hr
      subst hs
      constructor
      · show st2.cur_ino + 1 = st.cur_ino + 1
        rw [hino2, hino1]
      · show alGet e.md.ino st2.host_to_pfs = some st.cur_ino
        rw [hmap2, hino1, hmap1]
        exact alGet_put_self e.md.ino st.cur_ino st.host_to_pfs
  · intro c st e st' k v hne hk hok
    rcases process_entry_ok_cases c st e st' hok with
      ⟨st1, hl, hs⟩ | ⟨st1, st2, hl, hr, hs⟩
    · obtain ⟨hmap1, _⟩ := link_parent_ok st e st1 false hl
      subst hs
      rw [hmap1]
      exact hk
    · obtain ⟨hmap1, hino1, _, _, _, _, hiff, _⟩ := link_parent_ok st e st1 true hl
      obtain ⟨hmap2, _⟩ := render_entry_ok c st1 e st2 hr
      have hfr : ¬(st.cur_ino ≠ 1 ∧ (alGet e.md.ino st.host_to_pfs).isSome) := by
        intro hcontra
        exact absurd (hiff.mpr hcontra) (by simp)
      have hnone : alGet e.md.ino st.host_to_pfs = none := by
        rcases hmem : alGet e.md.ino st.host_to_pfs with _ | w
        · rfl
        · exact absurd ⟨hne, by simp [hmem]⟩ hfr
      have hkne : k ≠ e.md.ino := by
        intro heq
        rw [heq, hnone] at hk
        exact absurd hk (by simp)
      subst hs
      show alGet k st2.host_to_pfs = some v
      rw [hmap2, hino1, hmap1, alGet_put_other _ _ _ _ hkne]
      exact hk

/-- Concrete instance of the hard-link conjunct: a second path to host inode
7 (already mapped to Ino 2) only appends a DirEnt to its parent. -/
theorem hard_link_resolution_witness :
    process_entry noCutChunker
      ⟨[(5, ⟨1, [], ⟨5, .dir, 0⟩, none⟩)], [], [], [(7, 2)], 3, [], []⟩
      ⟨some 4, some 5, ⟨7, .file, 0⟩, [], none⟩ =
    .ok { (⟨[(5, ⟨1, [], ⟨5, .dir, 0⟩, none⟩)], [], [], [(7, 2)], 3, [], []⟩ : BuildState) with
      dirs := alPut 5 ⟨1, [⟨4, 2⟩], ⟨5, .dir, 0⟩, none⟩
        [(5, ⟨1, [], ⟨5, .dir, 0⟩, none⟩)] } :=
  hard_link_resolution.2.2.1 noCutChunker
    ⟨[(5, ⟨1, [], ⟨5, .dir, 0⟩, none⟩)], [], [], [(7, 2)], 3, [], []⟩
    ⟨some 4, some 5, ⟨7, .file, 0⟩, [], none⟩ 2 5 ⟨1, [], ⟨5, .dir, 0⟩, none⟩ 4
    (by decide) (by decide) rfl (by decide) rfl

theorem render_dirs_length (enc : Enc) (base : Nat) (ds : List Dir) :
    (render_dirs enc base ds).2.length = ds.length := by
  induction ds generalizing base with
  | nil => simp [render_dirs]
  | cons d rest ih => simp [render_dirs, ih]

theorem render_files_length (enc : Enc) (base : Nat) (fs : List File) :
    (render_files enc base fs).2.length = fs.length := by
  induction fs generalizing base with
  | nil => simp [render_files]
  | cons f rest ih => simp [render_files, ih]

theorem sort_dirs_length (ds : List Dir) : (sort_dirs ds).length = ds.length :=
  (List.perm_insertionSort _ ds).length_eq

/-- C6: for every N the inode table size computed before serialization,
cbor_size_of_list_header(N) + N * INODE_WIRE_SIZE, equals the actual byte
length of the serialized table of N inode records, and consequently the
layout stage's assert_eq comparing the serialized buffer length with the
precomputed value never fails. -/
theorem inode_table_size_precomputed :
    (∀ (inodes : List Inode),
      (encode_inode_table inodes).length = inode_encoded_size inodes.length) ∧
    (∀ (st : BuildState), ∃ out, layout specEnc st = .ok out) := by
  constructor
  · exact encode_inode_table_length
  · intro st
    unfold layout
    dsimp only
    split
    · exact ⟨_, rfl⟩
    · next hcond =>
      exfalso
      apply hcond
      rw [show specEnc.inodes = encode_inode_table from rfl, encode_inode_table_length]
      congr 1
      simp [render_dirs_length, render_files_length, sort_dirs_length]
      omega

theorem render_dirs_buf (enc : Enc) (base : Nat) (ds : List Dir) :
    (render_dirs enc base ds).1 = (ds.map (dirBytes enc)).flatten := by
  induction ds generalizing base with
  | nil => simp [render_dirs]
  | cons d rest ih =>
    cases ha : d.additional <;>
      simp [render_dirs, ha, dirBytes, ih]

theorem render_files_buf (enc : Enc) (base : Nat) (fs : List File) :
    (render_files enc base fs).1 = (fs.map (fileBytes enc)).flatten := by
  induction fs generalizing base with
  | nil => simp [render_files]
  | cons f rest ih =>
    cases ha : f.additional <;>
      simp [render_files, ha, fileBytes, ih]

theorem render_dirs_getElem (enc : Enc) (base : Nat) (ds : List Dir) (i : Nat) :
    (render_dirs enc base ds).2[i]? = ds[i]?.map (fun d =>
      Inode.new_dir d.ino d.md
        (base + (((ds.take i).map fun q => (dirBytes enc q).length).sum))
        (d.additional.map fun _ =>
          ⟨.Local, base + (((ds.take i).map fun q => (dirBytes enc q).length).sum) +
            (enc.dirList d.dir_list).length⟩)) := by
  induction ds generalizing base i with
  | nil => simp [render_dirs]
  | cons d rest ih =>
    cases i with
    | zero =>
      cases ha : d.additional <;>
        simp [render_dirs, ha]
    | succ j =>
      have hlen : (dirBytes enc d).length =
          (enc.dirList d.dir_list).length +
            (match d.additional with
             | none => ([] : List Byte)
             | some a => enc.additional a).length := by
        simp [dirBytes]
      cases ha : d.additional <;>
        · simp only [render_dirs, ha, List.getElem?_cons_succ, List.take_succ_cons,
            List.map_cons, List.sum_cons]
          rw [ih]
          simp [hlen, ha, Nat.add_assoc]

theorem render_files_getElem (enc : Enc) (base : Nat) (fs : List File) (i : Nat) :
    (render_files enc base fs).2[i]? = fs[i]?.map (fun f =>
      Inode.new_file f.ino f.md
        (base + (((fs.take i).map fun q => (fileBytes enc q).length).sum))
        (f.additional.map fun _ =>
          ⟨.Local, base + (((fs.take i).map fun q => (fileBytes enc q).length).sum) +
            (enc.chunkList f.chunk_list).length⟩)) := by
  induction fs generalizing base i with
  | nil => simp [render_files]
  | cons f rest ih =>
    cases i with
    | zero =>
      cases ha : f.additional <;>
        simp [render_files, ha]
    | succ j =>
      have hlen : (fileBytes enc f).length =
          (enc.chunkList f.chunk_list).length +
            (match f.additional with
             | none => ([] : List Byte)
             | some a => enc.additional a).length := by
        simp [fileBytes]
      cases ha : f.additional <;>
        · simp only [render_files, ha, List.getElem?_cons_succ, List.take_succ_cons,
            List.map_cons, List.sum_cons]
          rw [ih]
          simp [hlen, ha, Nat.add_assoc]

/-- What a successful layout run produces, in terms of the region contents. -/
theorem layout_ok (enc : Enc) (st : BuildState) (ins : List Inode)
    (blob : List Byte) (r : Rootfs) (h : layout enc st = .ok (ins, blob, r)) :
    ins = st.pfs_inodes ++
      (render_dirs enc (layout_table_size st) (ordered_dirs st)).2 ++
      (render_files enc (layout_table_size st + (dir_region enc st).length) st.files).2 ∧
    blob = enc.inodes ins ++ dir_region enc st ++ file_region enc st ∧
    r = ⟨[⟨.Other blob, 0⟩]⟩ ∧
    (enc.inodes ins).length = layout_table_size st := by
  unfold layout at h
  dsimp only at h
  rw [render_dirs_buf] at h
  split at h
  · next hcond =>
    injection h with h
    simp only [Prod.mk.injEq] at h
    obtain ⟨h1, h2, h3⟩ := h
    subst h1
    subst h2
    subst h3
    refine ⟨rfl, ?_, rfl, ?_⟩
    · rw [render_files_buf]
      rfl
    · exact hcond
  · exact absurd h (by simp)

theorem ordered_dirs_sorted (st : BuildState) :
    List.Sorted (fun a b => a.ino ≤ b.ino) (ordered_dirs st) :=
  @List.sorted_insertionSort Dir (fun a b => a.ino ≤ b.ino) _
    ⟨fun a b => Nat.le_total a.ino b.ino⟩
    ⟨fun _ _ _ hab hbc => Nat.le_trans hab hbc⟩
    (st.dirs.map Prod.snd)

/-- C5: the metadata blob is the inode table, then the directory region, then
the file region; directories are serialized in ascending ino order, each as
its entry list then its optional extended metadata, with every recorded
offset equal to the table size plus the running length already serialized in
the directory region; files follow in finalize order with offsets also
shifted by the directory region's length. -/
theorem metadata_layout_offsets (enc : Enc) (st : BuildState) (ins : List Inode)
    (blob : List Byte) (r : Rootfs) (h : layout enc st = .ok (ins, blob, r)) :
    blob = enc.inodes ins ++ dir_region enc st ++ file_region enc st ∧
    r = ⟨[⟨.Other blob, 0⟩]⟩ ∧
    List.Sorted (fun a b => a.ino ≤ b.ino) (ordered_dirs st) ∧
    (ordered_dirs st).Perm (st.dirs.map Prod.snd) ∧
    ins.length = st.pfs_inodes.length + st.dirs.length + st.files.length ∧
    (∀ i d, (ordered_dirs st)[i]? = some d →
      ins[st.pfs_inodes.length + i]? = some (Inode.new_dir d.ino d.md
        (layout_table_size st +
          (((ordered_dirs st).take i).map fun q => (dirBytes enc q).length).sum)
        (d.additional.map fun _ =>
          ⟨.Local, layout_table_size st +
            ((((ordered_dirs st).take i).map fun q => (dirBytes enc q).length).sum) +
            (enc.dirList d.dir_list).length⟩))) ∧
    (∀ i f, st.files[i]? = some f →
      ins[st.pfs_inodes.length + st.dirs.length + i]? = some (Inode.new_file f.ino f.md
        (layout_table_size st + (dir_region enc st).length +
          ((st.files.take i).map fun q => (fileBytes enc q).length).sum)
        (f.additional.map fun _ =>
          ⟨.Local, layout_table_size st + (dir_region enc st).length +
            (((st.files.take i).map fun q => (fileBytes enc q).length).sum) +
            (enc.chunkList f.chunk_list).length⟩))) := by
  obtain ⟨hins, hblob, hr, _⟩ := layout_ok enc st ins blob r h
  have hodl : (ordered_dirs st).length = st.dirs.length := by
    simp [ordered_dirs, sort_dirs_length]
  refine ⟨hblob, hr, ordered_dirs_sorted st,
    List.perm_insertionSort _ _, ?_, ?_, ?_⟩
  · rw [hins]
    simp [render_dirs_length, render_files_length, hodl]
    omega
  · intro i d hd
    have hi : i < (ordered_dirs st).length := by
      by_contra hge
      rw [List.getElem?_eq_none (by omega)] at hd
      exact absurd hd (by simp)
    rw [hins, List.append_assoc, List.getElem?_append_right (by omega),
      Nat.add_sub_cancel_left, List.getElem?_append_left
        (by rw [render_dirs_length]; exact hi),
      render_dirs_getElem, hd]
    rfl
  · intro i f hf
    have hi : i < st.files.length := by
      by_contra hge
      rw [List.getElem?_eq_none (by omega)] at hf
      exact absurd hf (by simp)
    have hidx : st.pfs_inodes.length + st.dirs.length + i =
        st.pfs_inodes.length + (st.dirs.length + i) := by omega
    rw [hins, List.append_assoc, hidx,
      List.getElem?_append_right (by omega), Nat.add_sub_cancel_left,
      List.getElem?_append_right (by rw [render_dirs_length, hodl]; omega),
      render_dirs_length, hodl, Nat.add_sub_cancel_left,
      render_files_getElem, hf]
    rfl

set_option maxRecDepth 10000 in
/-- Concrete instance of the layout theorem. -/
theorem metadata_layout_offsets_witness :
    layoutExBlob = specEnc.inodes layoutExInodes ++
      dir_region specEnc layoutExSt ++ file_region specEnc layoutExSt ∧
    layoutExInodes.length = 0 + 1 + 1 := by
  have thm := metadata_layout_offsets specEnc layoutExSt layoutExInodes layoutExBlob
    ⟨[⟨.Other layoutExBlob, 0⟩]⟩ (by decide)
  exact ⟨thm.1, thm.2.2.2.2.1⟩

theorem render_dirs_map_ino (enc : Enc) (base : Nat) (ds : List Dir) :
    (render_dirs enc base ds).2.map Inode.ino = ds.map Dir.ino := by
  induction ds generalizing base with
  | nil => simp [render_dirs]
  | cons d rest ih => simp [render_dirs, Inode.new_dir, ih]

theorem render_files_map_ino (enc : Enc) (base : Nat) (fs : List File) :
    (render_files enc base fs).2.map Inode.ino = fs.map File.ino := by
  induction fs generalizing base with
  | nil => simp [render_files]
  | cons f rest ih => simp [render_files, Inode.new_file, ih]

/-- The layout stage with the modelled encoders always passes its table-size
assertion and succeeds. -/
theorem layout_specEnc_ok (st : BuildState) : ∃ out, layout specEnc st = .ok out := by
  unfold layout
  dsimp only
  split
  · exact ⟨_, rfl⟩
  · next hcond =>
    exfalso
    apply hcond
    rw [show specEnc.inodes = encode_inode_table from rfl, encode_inode_table_length]
    congr 1
    simp [render_dirs_length, render_files_length, sort_dirs_length]
    omega

/-- Every inode record staged during the walk (before layout) belongs to an
Other entity, and the walk only ever appends to that list, so they stay first
and in walk order. -/
theorem process_entries_pfs_other (c : Chunker) :
    ∀ (es : List WalkEntry) (st st' : BuildState),
      process_entries c st es = .ok st' →
      ∃ xs, st'.pfs_inodes = st.pfs_inodes ++ xs ∧
        ∀ i ∈ xs, i.mode = .other := by
  intro es
  induction es with
  | nil =>
    intro st st' h
    injection h with h
    subst h
    exact ⟨[], by simp⟩
  | cons e rest ih =>
    intro st st' h
    rw [process_entries] at h
    cases hpe : process_entry c st e with
    | err m => rw [hpe] at h; exact absurd h (by simp)
    | assertFail m => rw [hpe] at h; exact absurd h (by simp)
    | ok st1 =>
      rw [hpe] at h
      obtain ⟨xs, hxs, hall⟩ := ih st1 st' h
      rcases process_entry_ok_cases c st e st1 hpe with
        ⟨stl, hl, hs⟩ | ⟨stl, st2, hl, hr, hs⟩
      · obtain ⟨_, _, _, _, _, hpfs, _⟩ := link_parent_ok st e stl false hl
        subst hs
        exact ⟨xs, by rw [hxs, hpfs], hall⟩
      · obtain ⟨_, _, _, _, _, hpfs1, _⟩ := link_parent_ok st e stl true hl
        obtain ⟨_, _, _, _, hoth, hfil⟩ := render_entry_ok c stl e st2 hr
        subst hs
        cases hk : e.md.kind with
        | dir =>
          obtain ⟨_, hpfs2, _⟩ := (render_entry_ok c stl e st2 hr).2.2.1 hk
          exact ⟨xs, by rw [hxs]; simp only []; rw [hpfs2, hpfs1], hall⟩
        | file =>
          obtain ⟨hpfs2, _⟩ := hfil hk
          exact ⟨xs, by rw [hxs]; simp only []; rw [hpfs2, hpfs1], hall⟩
        | other =>
          obtain ⟨hpfs2, _⟩ := hoth hk
          refine ⟨Inode.new_other stl.cur_ino e.md none :: xs, ?_, ?_⟩
          · rw [hxs]
            simp only []
            rw [hpfs2, hpfs1]
            simp
          · intro i hi
            rw [List.mem_cons] at hi
            rcases hi with hi | hi
            · subst hi
              simp [Inode.new_other]
            · exact hall i hi

/-- C8: the serialized inode table is not globally ordered by ino: the Other
records staged during the walk come first (the walk only appends to that
list, in walk order), then every directory in ascending ino order, then the
files in finalize order; a concrete state yields the unsorted ino sequence
2, 1, 3. -/
theorem inode_table_order :
    (∀ (enc : Enc) (st : BuildState) (ins : List Inode) (blob : List Byte) (r : Rootfs),
      layout enc st = .ok (ins, blob, r) →
      ins.map Inode.ino = st.pfs_inodes.map Inode.ino ++
        (ordered_dirs st).map Dir.ino ++ st.files.map File.ino ∧
      List.Sorted (fun a b => a ≤ b) ((ordered_dirs st).map Dir.ino) ∧
      (ordered_dirs st).Perm (st.dirs.map Prod.snd)) ∧
    (∀ (c : Chunker) (es : List WalkEntry) (st' : BuildState),
      process_entries c initState es = .ok st' →
      ∀ i ∈ st'.pfs_inodes, i.mode = .other) ∧
    (∃ out, layout specEnc unsortedExSt = .ok out ∧
      ¬ List.Sorted (fun a b => a ≤ b) (out.1.map Inode.ino)) := by
  refine ⟨?_, ?_, ?_⟩
  · intro enc st ins blob r h
    obtain ⟨hins, _, _, _⟩ := layout_ok enc st ins blob r h
    refine ⟨?_, ?_, List.perm_insertionSort _ _⟩
    · rw [hins]
      simp [render_dirs_map_ino, render_files_map_ino]
    · exact List.Pairwise.map Dir.ino (fun a b hab => hab) (ordered_dirs_sorted st)
  · intro c es st' h i hi
    obtain ⟨xs, hxs, hall⟩ := process_entries_pfs_other c es initState st' h
    rw [hxs] at hi
    simp only [initState, List.nil_append] at hi
    exact hall i hi
  · obtain ⟨⟨ins, blob, r⟩, hout⟩ := layout_specEnc_ok unsortedExSt
    refine ⟨(ins, blob, r), hout, ?_⟩
    obtain ⟨hins, _, _, _⟩ := layout_ok specEnc unsortedExSt ins blob r hout
    have hmap : ins.map Inode.ino = [2, 1, 3] := by
      rw [hins]
      decide
    simp only [hmap]
    decide

/-- Concrete instance of the table-order theorem: a single Other entity walk
leaves exactly Other records staged. -/
theorem inode_table_order_witness :
    ∀ i ∈ [Inode.new_other 1 ⟨5, .other, 0⟩ none], i.mode = InodeMode.other :=
  fun i hi =>
    inode_table_order.2.1 noCutChunker [⟨some 0, none, ⟨5, .other, 0⟩, [], none⟩]
      ⟨[], [], [Inode.new_other 1 ⟨5, .other, 0⟩ none], [(5, 1)], 2, [], []⟩
      (by decide) i hi

/-- A lawful chunker emits nothing when its buffer is empty. -/
theorem lawful_step_empty (c : Chunker) (hc : c.Lawful) : c.step [] = ([], []) := by
  obtain ⟨hcons, hne, _, _⟩ := hc
  have h1 := hcons []
  rcases hch : (c.step []).1 with _ | ⟨ch, t⟩
  · rw [hch] at h1
    simp at h1
    exact Prod.ext hch h1
  · exfalso
    rw [hch] at h1
    have : ch ≠ [] := hne [] ch (by rw [hch]; simp)
    cases ch with
    | nil => exact this rfl
    | cons b bs => simp at h1

/-- A lawful chunker flushes nothing from an empty buffer. -/
theorem lawful_flush_empty (c : Chunker) (hc : c.Lawful) : c.flushChunks [] = [] := by
  obtain ⟨_, _, hcons, hne⟩ := hc
  have h1 := hcons []
  rcases hch : c.flushChunks [] with _ | ⟨ch, t⟩
  · rfl
  · exfalso
    rw [hch] at h1
    have : ch ≠ [] := hne [] ch (by rw [hch]; simp)
    cases ch with
    | nil => exact this rfl
    | cons b bs => simp at h1

/-- Walking a tree whose regular files are all empty never feeds the chunker,
so nothing is ever emitted: the buffer stays empty, no file is finalized, the
pending queue only grows, and it is non-empty as soon as one regular file
with an unmapped host inode (all of whose host-inode sharers are files) was
walked. -/
theorem empty_files_walk (c : Chunker) (hc : c.Lawful) :
    ∀ (es : List WalkEntry) (st st' : BuildState),
      process_entries c st es = .ok st' →
      st.buffer = [] →
      (∀ e ∈ es, e.md.kind = .file → e.content = []) →
      st'.buffer = [] ∧
      st'.files = st.files ∧
      (∃ xs, st'.prev_files = st.prev_files ++ xs) ∧
      ((∃ e ∈ es, e.md.kind = .file ∧ alGet e.md.ino st.host_to_pfs = none ∧
          ∀ e' ∈ es, e'.md.ino = e.md.ino → e'.md.kind = .file) →
        st'.prev_files ≠ []) := by
  intro es
  induction es with
  | nil =>
    intro st st' h hbuf _
    injection h with h
    subst h
    exact ⟨hbuf, rfl, ⟨[], by simp⟩, by simp⟩
  | cons e rest ih =>
    intro st st' h hbuf hfe
    rw [process_entries] at h
    cases hpe : process_entry c st e with
    | err m => rw [hpe] at h; exact absurd h (by simp)
    | assertFail m => rw [hpe] at h; exact absurd h (by simp)
    | ok sti =>
      rw [hpe] at h
      dsimp only at h
      have hferest : ∀ e' ∈ rest, e'.md.kind = .file → e'.content = [] :=
        fun e' he' => hfe e' (by simp [he'])
      rcases process_entry_ok_cases c st e sti hpe with
        ⟨stl, hl, hs⟩ | ⟨stl, st2, hl, hr, hs⟩
      · -- hard-link repeat: only dirs changed
        rw [hs] at h
        obtain ⟨hmap, _, hfi, hpf, hbu, _, hiff, _⟩ := link_parent_ok st e stl false hl
        obtain ⟨hb', hf', ⟨xs, hxs⟩, hne⟩ := ih stl st' h (by rw [hbu]; exact hbuf) hferest
        refine ⟨hb', by rw [hf', hfi], ⟨xs, by rw [hxs, hpf]⟩, ?_⟩
        rintro ⟨w, hw, hwf, hwnone, hwall⟩
        rcases List.mem_cons.mp hw with hweq | hwmem
        · exfalso
          obtain ⟨_, hsome⟩ := hiff.mp rfl
          rw [hweq] at hwnone
          rw [hwnone] at hsome
          simp at hsome
        · exact hne ⟨w, hwmem, hwf, by rw [hmap]; exact hwnone,
            fun e' he' => hwall e' (by simp [he'])⟩
      · -- fresh entity
        rw [hs] at h
        obtain ⟨hmapl, hinol, hfil, hpfl, hbul, _, _, _⟩ := link_parent_ok st e stl true hl
        obtain ⟨hmapr, _, hdir, hndir, hoth, hfile⟩ := render_entry_ok c stl e st2 hr
        have hfresh : ∀ (w : WalkEntry), w ∈ rest → w.md.ino ≠ e.md.ino →
            alGet w.md.ino st.host_to_pfs = none →
            alGet w.md.ino ({ st2 with cur_ino := st2.cur_ino + 1 } : BuildState).host_to_pfs
              = none := by
          intro w _ hne0 hnone
          show alGet w.md.ino st2.host_to_pfs = none
          rw [hmapr, hinol, hmapl, alGet_put_other _ _ _ _ hne0]
          exact hnone
        cases hk : e.md.kind with
        | dir =>
          obtain ⟨_, _, hfi2, hpf2, hbu2⟩ := hdir hk
          obtain ⟨hb', hf', ⟨xs, hxs⟩, hne⟩ := ih _ st' h
            (by show st2.buffer = []; rw [hbu2, hbul]; exact hbuf) hferest
          refine ⟨hb', by rw [hf']; show st2.files = _; rw [hfi2, hfil],
            ⟨xs, by
              rw [hxs]
              show st2.prev_files ++ xs = st.prev_files ++ xs
              rw [hpf2, hpfl]⟩, ?_⟩
          rintro ⟨w, hw, hwf, hwnone, hwall⟩
          rcases List.mem_cons.mp hw with hweq | hwmem
          · rw [hweq] at hwf
            rw [hk] at hwf
            exact absurd hwf (by simp)
          · have hnoteq : w.md.ino ≠ e.md.ino := by
              intro heq
              have := hwall e (by simp) heq.symm
              rw [hk] at this
              exact absurd this (by simp)
            exact hne ⟨w, hwmem, hwf, hfresh w hwmem hnoteq hwnone,
              fun e' he' => hwall e' (by simp [he'])⟩
        | file =>
          have hcont : e.content = [] := hfe e (by simp) hk
          have hstep0 : st2.buffer = [] ∧ (c.step (stl.buffer ++ e.content)).1 = [] := by
            rw [hbul, hbuf, hcont]
            constructor
            · have := (hfile hk).2.1
              rw [hbul, hbuf, hcont] at this
              rw [this]
              simp [lawful_step_empty c hc]
            · simp [lawful_step_empty c hc]
          obtain ⟨hbu2, hstep⟩ := hstep0
          obtain ⟨hfi2, hpf2⟩ := (hfile hk).2.2.1 hstep
          obtain ⟨hb', hf', ⟨xs, hxs⟩, _⟩ := ih _ st' h
            (by show st2.buffer = []; exact hbu2) hferest
          refine ⟨hb', by rw [hf']; show st2.files = _; rw [hfi2, hfil],
            ⟨⟨stl.cur_ino, [], e.md, e.additional⟩ :: xs, ?_⟩, ?_⟩
          · rw [hxs]
            show st2.prev_files ++ xs = _
            rw [hpf2, hpfl]
            simp
          · intro _
            rw [hxs]
            show st2.prev_files ++ xs ≠ []
            rw [hpf2]
            simp
        | other =>
          obtain ⟨_, hfi2, hpf2, hbu2⟩ := hoth hk
          obtain ⟨hb', hf', ⟨xs, hxs⟩, hne⟩ := ih _ st' h
            (by show st2.buffer = []; rw [hbu2, hbul]; exact hbuf) hferest
          refine ⟨hb', by rw [hf']; show st2.files = _; rw [hfi2, hfil],
            ⟨xs, by
              rw [hxs]
              show st2.prev_files ++ xs = st.prev_files ++ xs
              rw [hpf2, hpfl]⟩, ?_⟩
          rintro ⟨w, hw, hwf, hwnone, hwall⟩
          rcases List.mem_cons.mp hw with hweq | hwmem
          · rw [hweq] at hwf
            rw [hk] at hwf
            exact absurd hwf (by simp)
          · have hnoteq : w.md.ino ≠ e.md.ino := by
              intro heq
              have := hwall e (by simp) heq.symm
              rw [hk] at this
              exact absurd this (by simp)
            exact hne ⟨w, hwmem, hwf, hfresh w hwmem hnoteq hwnone,
              fun e' he' => hwall e' (by simp [he'])⟩

/-- C10: for an input tree all of whose regular files are empty and that
contains at least one regular file (one whose host inode is carried only by
regular files, as on a real filesystem), the final flush emits no chunk while
the Pending-File Queue is non-empty, and build_initial_rootfs terminates in
the assert! on line 262, not by returning an Error value. -/
theorem empty_files_panic (c : Chunker) (hc : c.Lawful) (enc : Enc) (name : Nat)
    (t : FsNode) (st : BuildState)
    (hok : process_entries c initState (walkNode none name t) = .ok st)
    (hfe : ∀ e ∈ walkNode none name t, e.md.kind = .file → e.content = [])
    (hex : ∃ e ∈ walkNode none name t, e.md.kind = .file ∧
      ∀ e' ∈ walkNode none name t, e'.md.ino = e.md.ino → e'.md.kind = .file) :
    build_initial_rootfs c enc (walkNode none name t) =
      .assertFail "pending files but no written chunks" := by
  obtain ⟨hbuf, _, _, hne⟩ :=
    empty_files_walk c hc (walkNode none name t) initState st hok rfl hfe
  have hprev : st.prev_files ≠ [] := by
    obtain ⟨e, he, hef, hall⟩ := hex
    exact hne ⟨e, he, hef, by simp [initState, alGet], hall⟩
  have hpb : st.prev_files.isEmpty = false := by
    cases hp : st.prev_files
    · exact absurd hp hprev
    · rfl
  have hfin : finish_build c st = .assertFail "pending files but no written chunks" := by
    unfold finish_build
    rw [hbuf, lawful_flush_empty c hc]
    simp [write_chunks_to_oci, hpb]
  unfold build_initial_rootfs build_image
  rw [hok]
  dsimp only
  rw [hfin]

theorem noCutChunker_lawful : noCutChunker.Lawful := by
  refine ⟨fun buf => by simp [noCutChunker], fun buf ch h => by simp [noCutChunker] at h,
    fun buf => ?_, fun buf ch h => ?_⟩
  · cases buf <;> simp [noCutChunker]
  · cases buf with
    | nil => simp [noCutChunker] at h
    | cons b bs =>
      simp [noCutChunker] at h
      rw [h]
      simp

/-- Concrete instance of the empty-files theorem: the build of a directory
with one empty regular file aborts in the assert. -/
theorem empty_files_panic_witness :
    build_initial_rootfs noCutChunker specEnc (walkNode none 0 c10Tree) =
      .assertFail "pending files but no written chunks" := by
  have hwalk : walkNode none 0 c10Tree =
      [⟨some 0, none, ⟨1, .dir, 0⟩, [], none⟩,
       ⟨some 5, some 1, ⟨2, .file, 0⟩, [], none⟩] := by
    simp [c10Tree, walkNode_dir, walkNode_file, sortChildren, mkEntry,
      FsNode.meta, FsNode.contentOf, FsNode.addOf]
  exact empty_files_panic noCutChunker noCutChunker_lawful specEnc 0 c10Tree
    ⟨[(1, ⟨1, [⟨5, 2⟩], ⟨1, .dir, 0⟩, none⟩)], [], [],
      [(1, 1), (2, 2)], 3, [], [⟨2, [], ⟨2, .file, 0⟩, none⟩]⟩
    (by rw [hwalk]; decide) (by rw [hwalk]; decide) (by rw [hwalk]; decide)

set_option maxRecDepth 10000 in
/-- C2 evidence: on a directory holding two empty regular files the build
walks fine, the flush emits no chunk while both files sit in the pending
queue, and build_initial_rootfs aborts in the assert on line 262 instead of
holding the consistency conditions. -/
theorem post_flush_assert_fails_on_empty_files :
    build_initial_rootfs noCutChunker specEnc (walkNode none 0 c2Tree) =
      .assertFail "pending files but no written chunks" := by
  have hwalk : walkNode none 0 c2Tree =
      [⟨some 0, none, ⟨1, .dir, 0⟩, [], none⟩,
       ⟨some 3, some 1, ⟨2, .file, 0⟩, [], none⟩,
       ⟨some 4, some 1, ⟨3, .file, 0⟩, [], none⟩] := by
    simp [c2Tree, walkNode_dir, walkNode_file, sortChildren, mkEntry,
      FsNode.meta, FsNode.contentOf, FsNode.addOf]
  rw [hwalk]
  decide

set_option maxRecDepth 10000 in
/-- C1 evidence: the tree holds a non-empty regular file whose streaming
completes a chunk during the walk (cut4 cuts at its 4 bytes); the source's
else branch never pushes the File accumulator anywhere, so the built image
contains only the root directory's inode record: the file has no inode and no
chunk list in the image, and its content cannot be reproduced. -/
theorem chunked_file_dropped :
    (∃ e ∈ walkNode none 0 c1Tree, e.md.kind = .file ∧ e.content = [1, 2, 3, 4]) ∧
    build_image cut4 specEnc (walkNode none 0 c1Tree) =
      .ok ([Inode.new_dir 1 ⟨1, .dir, 0⟩ 65 none],
        encode_inode_table [Inode.new_dir 1 ⟨1, .dir, 0⟩ 65 none] ++ [1, 5, 2],
        ⟨[⟨.Other (encode_inode_table [Inode.new_dir 1 ⟨1, .dir, 0⟩ 65 none]
          ++ [1, 5, 2]), 0⟩]⟩) := by
  have hwalk : walkNode none 0 c1Tree =
      [⟨some 0, none, ⟨1, .dir, 0⟩, [], none⟩,
       ⟨some 5, some 1, ⟨2, .file, 4⟩, [1, 2, 3, 4], none⟩] := by
    simp [c1Tree, walkNode_dir, walkNode_file, sortChildren, mkEntry,
      FsNode.meta, FsNode.contentOf, FsNode.addOf]
  rw [hwalk]
  constructor
  · decide
  · decide

theorem sizeOf_sorted_child_lt (cs : List (Nat × FsNode)) (x : Nat × FsNode)
    (hx : x ∈ sortChildren cs) (h0 : Nat) (a : Option InodeAdditional) :
    sizeOf x.2 < sizeOf (FsNode.dir h0 a cs) := by
  have hmem : x ∈ cs := by
    simpa [sortChildren, List.mem_insertionSort] using hx
  have h1 : sizeOf x < sizeOf cs := List.sizeOf_lt_of_mem hmem
  have h2 : sizeOf x.2 < sizeOf x := by
    obtain ⟨u, v⟩ := x
    simp
  simp
  omega

theorem mem_walk_self (p : Option Nat) (n : Nat) (t : FsNode) :
    mkEntry p n t ∈ walkNode p n t := by
  cases t with
  | dir h a cs => rw [walkNode_dir]; simp
  | file h a cont => rw [walkNode_file]; simp
  | other h a => rw [walkNode_other]; simp

/-- An entry of a subtree walk whose parent field names hno forces hno to be
the walk's parent parameter or a host inode occurring in the walk. -/
theorem walk_foreign_parent (hno : Nat) :
    ∀ (N : Nat) (t : FsNode) (p : Option Nat) (n : Nat) (e : WalkEntry),
      sizeOf t ≤ N →
      e ∈ walkNode p n t →
      e.parent = some hno →
      hno ∉ (walkNode p n t).map (fun x => x.md.ino) →
      p ≠ some hno → False := by
  intro N
  induction N with
  | zero =>
    intro t p n e hsz
    exfalso
    cases t <;> simp at hsz
  | succ N ih =>
    intro t p n e hsz hmem hpar hnotin hpne
    cases t with
    | file h0 a cont =>
      rw [walkNode_file] at hmem
      simp at hmem
      rw [hmem] at hpar
      simp [mkEntry] at hpar
      exact hpne (by rw [← hpar])
    | other h0 a =>
      rw [walkNode_other] at hmem
      simp at hmem
      rw [hmem] at hpar
      simp [mkEntry] at hpar
      exact hpne (by rw [← hpar])
    | dir h0 a cs =>
      rw [walkNode_dir] at hmem hnotin
      rcases List.mem_cons.mp hmem with he | he
      · rw [he] at hpar
        simp [mkEntry] at hpar
        exact hpne (by rw [← hpar])
      · rw [List.mem_flatten] at he
        obtain ⟨l, hl, hel⟩ := he
        rw [List.mem_map] at hl
        obtain ⟨x, hx, hlx⟩ := hl
        have h0ne : h0 ≠ hno := by
          intro heq
          apply hnotin
          simp [mkEntry, FsNode.meta, heq]
        apply ih x.2 (some h0) x.1 e ?_ (by rw [hlx]; exact hel) hpar ?_
          (by simp [h0ne])
        · have := sizeOf_sorted_child_lt cs x hx h0 a
          omega
        · intro hc
          apply hnotin
          simp only [List.map_cons, List.mem_cons]
          right
          rw [List.mem_map]
          rw [List.mem_map] at hc
          obtain ⟨w, hw, hwe⟩ := hc
          refine ⟨w, ?_, hwe⟩
          rw [List.mem_flatten]
          refine ⟨l, ?_, by rw [← hlx]; exact hw⟩
          rw [List.mem_map]
          exact ⟨x, hx, hlx⟩

theorem filter_flatten_eq (p : α → Bool) :
    ∀ (L : List (List α)), (L.flatten).filter p = (L.map (List.filter p)).flatten := by
  intro L
  induction L with
  | nil => simp
  | cons l t ih => simp [List.filter_append, ih]

theorem flatten_map_singleton (f : α → β) :
    ∀ (l : List α), (l.map (fun x => [f x])).flatten = l.map f := by
  intro l
  induction l with
  | nil => simp
  | cons a t ih => simp [ih]

/-- The filter over the flattened walks of the children of a directory other
than hno keeps nothing, when hno occurs nowhere inside. -/
theorem walk_list_filter_nil (hno h0 : Nat) (L : List (Nat × FsNode))
    (hnotin : hno ∉
      ((L.map (fun x => walkNode (some h0) x.1 x.2)).flatten).map (fun x => x.md.ino))
    (hne : h0 ≠ hno) :
    ((L.map (fun x => walkNode (some h0) x.1 x.2)).flatten).filter
      (fun e => e.parent = some hno) = [] := by
  rw [List.filter_eq_nil_iff]
  intro e he hp
  simp only [decide_eq_true_eq] at hp
  rw [List.mem_flatten] at he
  obtain ⟨l, hl, hel⟩ := he
  rw [List.mem_map] at hl
  obtain ⟨x, hx, hlx⟩ := hl
  apply walk_foreign_parent hno (sizeOf x.2) x.2 (some h0) x.1 e le_rfl
    (by rw [hlx]; exact hel) hp ?_ (by simp [hne])
  intro hc
  apply hnotin
  rw [List.mem_map] at hc
  obtain ⟨w, hw, hwe⟩ := hc
  rw [List.mem_map]
  refine ⟨w, ?_, hwe⟩
  rw [List.mem_flatten]
  refine ⟨l, ?_, by rw [← hlx]; exact hw⟩
  rw [List.mem_map]
  exact ⟨x, hx, hlx⟩

/-- The walk of one direct child of directory hno contributes exactly its own
root entry to hno's entry list. -/
theorem walk_child_filter (hno : Nat) (m : Nat) (c : FsNode)
    (hnotin : hno ∉ (walkNode (some hno) m c).map (fun x => x.md.ino)) :
    (walkNode (some hno) m c).filter (fun e => e.parent = some hno) =
      [mkEntry (some hno) m c] := by
  cases c with
  | file h a cont =>
    rw [walkNode_file]
    simp [mkEntry]
  | other h a =>
    rw [walkNode_other]
    simp [mkEntry]
  | dir h a cs =>
    rw [walkNode_dir]
    rw [List.filter_cons, if_pos (by simp [mkEntry])]
    rw [walkNode_dir] at hnotin
    have hne : h ≠ hno := by
      intro heq
      apply hnotin
      simp [mkEntry, FsNode.meta, heq]
    rw [walk_list_filter_nil hno h (sortChildren cs) ?_ hne]
    · intro hc
      apply hnotin
      simp only [List.map_cons, List.mem_cons]
      exact Or.inr hc

/-- A directory node inside a tree shows up as a host inode of the walk. -/
theorem walk_dirnode_ino_mem (hno : Nat) (cs' : List (Nat × FsNode)) :
    ∀ (t : FsNode), DirNode t hno cs' →
      ∀ (p : Option Nat) (n : Nat),
        hno ∈ (walkNode p n t).map (fun x => x.md.ino) := by
  intro t hdn
  induction hdn with
  | here h a cs =>
    intro p n
    rw [walkNode_dir]
    simp [mkEntry, FsNode.meta]
  | @child h0 a0 cs0 x hno2 cs2 hx hsub ih =>
    intro p n
    rw [walkNode_dir]
    simp only [List.map_cons, List.mem_cons]
    right
    rw [List.mem_map]
    have hxs : x ∈ sortChildren cs0 := by
      simp [sortChildren, List.mem_insertionSort, hx]
    have hsubmem := ih (some h0) x.1
    rw [List.mem_map] at hsubmem
    obtain ⟨w, hw, hwe⟩ := hsubmem
    refine ⟨w, ?_, hwe⟩
    rw [List.mem_flatten]
    refine ⟨walkNode (some h0) x.1 x.2, ?_, hw⟩
    rw [List.mem_map]
    exact ⟨x, hxs, rfl⟩

/-- Segmentation of a tree walk around one directory node with a unique host
inode: an entry for the directory itself, no entries naming it as parent
before it, and after it exactly one entry per sorted child naming it as
parent. -/
theorem walk_dir_segment :
    ∀ (t : FsNode) (hno : Nat) (csd : List (Nat × FsNode)), DirNode t hno csd →
      ∀ (p : Option Nat) (n : Nat),
        ((walkNode p n t).map (fun x => x.md.ino)).count hno = 1 →
        p ≠ some hno →
        ∃ A eh B, walkNode p n t = A ++ eh :: B ∧
          eh.md.ino = hno ∧ eh.md.kind = .dir ∧
          hno ∉ A.map (fun x => x.md.ino) ∧
          A.filter (fun e => e.parent = some hno) = [] ∧
          B.filter (fun e => e.parent = some hno) =
            (sortChildren csd).map (fun x => mkEntry (some hno) x.1 x.2) := by
  intro t hno csd hdn
  induction hdn with
  | here h a cs =>
    intro p n hcount hpne
    refine ⟨[], mkEntry p n (.dir h a cs),
      ((sortChildren cs).map fun x => walkNode (some h) x.1 x.2).flatten,
      by rw [walkNode_dir, List.nil_append], by simp [mkEntry, FsNode.meta],
      by simp [mkEntry, FsNode.meta], by simp, by simp, ?_⟩
    rw [walkNode_dir, List.map_cons, List.count_cons,
      if_pos (by simp [mkEntry, FsNode.meta] :
        (((mkEntry p n (FsNode.dir h a cs)).md.ino == h) = true))] at hcount
    have hflat0 :
        ((((sortChildren cs).map fun x => walkNode (some h) x.1 x.2).flatten).map
          (fun e => e.md.ino)).count h = 0 := by omega
    have hflat_notin : h ∉
        ((((sortChildren cs).map fun x => walkNode (some h) x.1 x.2).flatten).map
          (fun e => e.md.ino)) := by
      rw [← List.count_eq_zero]
      exact hflat0
    rw [filter_flatten_eq, List.map_map]
    have hmapeq : (sortChildren cs).map
          ((List.filter fun e => e.parent = some h) ∘ fun x => walkNode (some h) x.1 x.2) =
        (sortChildren cs).map (fun x => [mkEntry (some h) x.1 x.2]) := by
      apply List.map_congr_left
      intro x hx
      show (walkNode (some h) x.1 x.2).filter (fun e => e.parent = some h) = _
      apply walk_child_filter
      intro hc
      apply hflat_notin
      rw [List.mem_map] at hc
      obtain ⟨w, hw, hwe⟩ := hc
      rw [List.mem_map]
      refine ⟨w, ?_, hwe⟩
      rw [List.mem_flatten]
      refine ⟨walkNode (some h) x.1 x.2, ?_, hw⟩
      rw [List.mem_map]
      exact ⟨x, hx, rfl⟩
    rw [hmapeq, flatten_map_singleton]
  | @child h0 a0 cs0 x hno csd hx hsub ih =>
    intro p n hcount hpne
    have hxs : x ∈ sortChildren cs0 := by
      simp [sortChildren, List.mem_insertionSort, hx]
    obtain ⟨X, Y, hXY⟩ := List.append_of_mem hxs
    have hwalk : walkNode p n (.dir h0 a0 cs0) =
        mkEntry p n (.dir h0 a0 cs0) ::
          ((X.map fun y => walkNode (some h0) y.1 y.2).flatten ++
            (walkNode (some h0) x.1 x.2 ++
              (Y.map fun y => walkNode (some h0) y.1 y.2).flatten)) := by
      rw [walkNode_dir, hXY]
      simp
    have hcount' := hcount
    rw [hwalk] at hcount'
    simp only [List.map_cons, List.map_append, List.count_cons, List.count_append]
      at hcount'
    have hWpos : 0 <
        ((walkNode (some h0) x.1 x.2).map (fun x => x.md.ino)).count hno := by
      rw [List.count_pos_iff]
      exact walk_dirnode_ino_mem hno csd x.2 hsub (some h0) x.1
    have hh0 : h0 ≠ hno := by
      intro heq
      rw [if_pos (by simp [mkEntry, FsNode.meta, heq] :
        (((mkEntry p n (FsNode.dir h0 a0 cs0)).md.ino == hno) = true))] at hcount'
      omega
    rw [if_neg (by simp [mkEntry, FsNode.meta, hh0] :
      ¬(((mkEntry p n (FsNode.dir h0 a0 cs0)).md.ino == hno) = true))] at hcount'
    have hW1 : ((walkNode (some h0) x.1 x.2).map (fun x => x.md.ino)).count hno = 1 := by
      omega
    have hXc : (((X.map fun y => walkNode (some h0) y.1 y.2).flatten).map
        (fun x => x.md.ino)).count hno = 0 := by omega
    have hYc : (((Y.map fun y => walkNode (some h0) y.1 y.2).flatten).map
        (fun x => x.md.ino)).count hno = 0 := by omega
    obtain ⟨A', eh, B', hsplit, hino, hkind, hnotinA', hfiltA', hfiltB'⟩ :=
      ih (some h0) x.1 hW1 (by simp [hh0])
    refine ⟨mkEntry p n (.dir h0 a0 cs0) ::
        ((X.map fun y => walkNode (some h0) y.1 y.2).flatten ++ A'), eh,
      B' ++ (Y.map fun y => walkNode (some h0) y.1 y.2).flatten,
      ?_, hino, hkind, ?_, ?_, ?_⟩
    · rw [hwalk, hsplit]
      simp
    · intro hc
      simp only [List.map_cons, List.map_append, List.mem_cons, List.mem_append] at hc
      rcases hc with hc | hc | hc
      · exact hh0 (by simpa [mkEntry, FsNode.meta] using hc.symm)
      · rw [List.count_eq_zero] at hXc
        exact hXc hc
      · exact hnotinA' hc
    · rw [List.filter_cons, if_neg (by
          simp only [mkEntry, decide_eq_true_eq]
          intro heq
          exact hpne heq),
        List.filter_append, walk_list_filter_nil hno h0 X
          (by rw [← List.count_eq_zero]; exact hXc) hh0, hfiltA']
      simp
    · rw [List.filter_append, hfiltB', walk_list_filter_nil hno h0 Y
        (by rw [← List.count_eq_zero]; exact hYc) hh0]
      simp

theorem alGet_put_isSome (k k' : Nat) (v : α) (m : List (Nat × α)) :
    (alGet k (alPut k' v m)).isSome ↔ k = k' ∨ (alGet k m).isSome := by
  by_cases hk : k = k'
  · subst hk
    simp [alGet_put_self]
  · rw [alGet_put_other _ _ _ _ hk]
    simp [hk]

theorem process_entry_StInv (c : Chunker) (st : BuildState) (e : WalkEntry)
    (st' : BuildState) (h : process_entry c st e = .ok st') (hinv : StInv st) :
    StInv st' := by
  rcases process_entry_ok_cases c st e st' h with
    ⟨stl, hl, hs⟩ | ⟨stl, st2, hl, hr, hs⟩
  · obtain ⟨hmap, _, _, _, _, _, _, hcase⟩ := link_parent_ok st e stl false hl
    subst hs
    intro k hk
    rw [hmap]
    rcases hcase with ⟨_, hid⟩ | ⟨_, pi, D, nm, _, hDi, _, hdirs⟩
    · apply hinv
      rw [hid] at hk
      exact hk
    · rw [hdirs, alGet_put_isSome] at hk
      rcases hk with hk | hk
      · subst hk
        exact hinv k (by rw [hDi]; simp)
      · exact hinv k hk
  · obtain ⟨hmapl, _, _, _, _, _, _, hcase⟩ := link_parent_ok st e stl true hl
    obtain ⟨hmapr, _, hdir, hndir, _, _⟩ := render_entry_ok c stl e st2 hr
    subst hs
    intro k hk
    show (alGet k st2.host_to_pfs).isSome
    have hstl : (alGet k stl.dirs).isSome → (alGet k stl.host_to_pfs).isSome := by
      intro hk'
      rw [hmapl]
      rcases hcase with ⟨_, hid⟩ | ⟨_, pi, D, nm, _, hDi, _, hdirs⟩
      · apply hinv
        rw [hid] at hk'
        exact hk'
      · rw [hdirs, alGet_put_isSome] at hk'
        rcases hk' with hk' | hk'
        · subst hk'
          exact hinv k (by rw [hDi]; simp)
        · exact hinv k hk'
    rw [hmapr, alGet_put_isSome]
    by_cases hkind : e.md.kind = .dir
    · obtain ⟨hd2, _⟩ := hdir hkind
      rw [hd2, alGet_put_isSome] at hk
      rcases hk with hk | hk
      · exact Or.inl hk
      · exact Or.inr (hstl hk)
    · rw [hndir hkind] at hk
      exact Or.inr (hstl hk)

theorem process_entry_cur_mono (c : Chunker) (st : BuildState) (e : WalkEntry)
    (st' : BuildState) (h : process_entry c st e = .ok st') :
    st.cur_ino ≤ st'.cur_ino := by
  rcases process_entry_ok_cases c st e st' h with
    ⟨stl, hl, hs⟩ | ⟨stl, st2, hl, hr, hs⟩
  · obtain ⟨_, hino, _⟩ := link_parent_ok st e stl false hl
    subst hs
    omega
  · obtain ⟨_, hinol, _⟩ := link_parent_ok st e stl true hl
    obtain ⟨_, hino2, _⟩ := render_entry_ok c stl e st2 hr
    subst hs
    show st.cur_ino ≤ st2.cur_ino + 1
    omega

theorem process_entries_split (c : Chunker) :
    ∀ (xs ys : List WalkEntry) (st st' : BuildState),
      process_entries c st (xs ++ ys) = .ok st' →
      ∃ mid, process_entries c st xs = .ok mid ∧ process_entries c mid ys = .ok st' := by
  intro xs
  induction xs with
  | nil =>
    intro ys st st' h
    exact ⟨st, rfl, h⟩
  | cons e rest ih =>
    intro ys st st' h
    rw [List.cons_append, process_entries] at h
    cases hpe : process_entry c st e with
    | err m => rw [hpe] at h; exact absurd h (by simp)
    | assertFail m => rw [hpe] at h; exact absurd h (by simp)
    | ok st1 =>
      rw [hpe] at h
      dsimp only at h
      obtain ⟨mid, h1, h2⟩ := ih ys st1 st' h
      refine ⟨mid, ?_, h2⟩
      rw [process_entries, hpe]
      exact h1

theorem process_entry_host_keys (c : Chunker) (st : BuildState) (e : WalkEntry)
    (st' : BuildState) (h : process_entry c st e = .ok st') (k : Nat)
    (hk : (alGet k st'.host_to_pfs).isSome) :
    (alGet k st.host_to_pfs).isSome ∨ k = e.md.ino := by
  rcases process_entry_ok_cases c st e st' h with
    ⟨stl, hl, hs⟩ | ⟨stl, st2, hl, hr, hs⟩
  · obtain ⟨hmap, _⟩ := link_parent_ok st e stl false hl
    subst hs
    rw [hmap] at hk
    exact Or.inl hk
  · obtain ⟨hmapl, _⟩ := link_parent_ok st e stl true hl
    obtain ⟨hmapr, _⟩ := render_entry_ok c stl e st2 hr
    subst hs
    replace hk : (alGet k st2.host_to_pfs).isSome := hk
    rw [hmapr, alGet_put_isSome, hmapl] at hk
    rcases hk with hk | hk
    · exact Or.inr hk
    · exact Or.inl hk

theorem process_entries_host_keys (c : Chunker) :
    ∀ (es : List WalkEntry) (st st' : BuildState),
      process_entries c st es = .ok st' → ∀ (k : Nat),
      (alGet k st'.host_to_pfs).isSome →
      (alGet k st.host_to_pfs).isSome ∨ k ∈ es.map (fun e => e.md.ino) := by
  intro es
  induction es with
  | nil =>
    intro st st' h k hk
    injection h with h
    subst h
    exact Or.inl hk
  | cons e rest ih =>
    intro st st' h k hk
    rw [process_entries] at h
    cases hpe : process_entry c st e with
    | err m => rw [hpe] at h; exact absurd h (by simp)
    | assertFail m => rw [hpe] at h; exact absurd h (by simp)
    | ok st1 =>
      rw [hpe] at h
      dsimp only at h
      rcases ih st1 st' h k hk with hk1 | hk1
      · rcases process_entry_host_keys c st e st1 hpe k hk1 with hk2 | hk2
        · exact Or.inl hk2
        · exact Or.inr (by simp [hk2])
      · exact Or.inr (by simp [hk1])

theorem process_entries_StInv (c : Chunker) :
    ∀ (es : List WalkEntry) (st st' : BuildState),
      process_entries c st es = .ok st' → StInv st → StInv st' := by
  intro es
  induction es with
  | nil =>
    intro st st' h hinv
    injection h with h
    subst h
    exact hinv
  | cons e rest ih =>
    intro st st' h hinv
    rw [process_entries] at h
    cases hpe : process_entry c st e with
    | err m => rw [hpe] at h; exact absurd h (by simp)
    | assertFail m => rw [hpe] at h; exact absurd h (by simp)
    | ok st1 =>
      rw [hpe] at h
      dsimp only at h
      exact ih st1 st' h (process_entry_StInv c st e st1 hpe hinv)

theorem process_entries_cur_mono (c : Chunker) :
    ∀ (es : List WalkEntry) (st st' : BuildState),
      process_entries c st es = .ok st' → st.cur_ino ≤ st'.cur_ino := by
  intro es
  induction es with
  | nil =>
    intro st st' h
    injection h with h
    subst h
    exact le_rfl
  | cons e rest ih =>
    intro st st' h
    rw [process_entries] at h
    cases hpe : process_entry c st e with
    | err m => rw [hpe] at h; exact absurd h (by simp)
    | assertFail m => rw [hpe] at h; exact absurd h (by simp)
    | ok st1 =>
      rw [hpe] at h
      dsimp only at h
      exact le_trans (process_entry_cur_mono c st e st1 hpe) (ih st1 st' h)

/-- Once a directory accumulator exists, processing more walk entries appends
exactly one DirEnt per entry naming it as parent, in walk order, carrying the
entry's name. -/
theorem process_entries_dir_growth (c : Chunker) :
    ∀ (es : List WalkEntry) (st st' : BuildState),
      process_entries c st es = .ok st' →
      2 ≤ st.cur_ino → StInv st →
      ∀ (hh : Nat) (d : Dir), alGet hh st.dirs = some d →
        ∃ d', alGet hh st'.dirs = some d' ∧
          d'.dir_list.map DirEnt.name = d.dir_list.map DirEnt.name ++
            ((es.filter (fun e => e.parent = some hh)).map
              (fun e => e.name.getD 0)) := by
  intro es
  induction es with
  | nil =>
    intro st st' h _ _ hh d hd
    injection h with h
    subst h
    exact ⟨d, hd, by simp⟩
  | cons e rest ih =>
    intro st st' h hcur hinv hh d hd
    rw [process_entries] at h
    cases hpe : process_entry c st e with
    | err m => rw [hpe] at h; exact absurd h (by simp)
    | assertFail m => rw [hpe] at h; exact absurd h (by simp)
    | ok st1 =>
      rw [hpe] at h
      dsimp only at h
      have hcur1 : 2 ≤ st1.cur_ino :=
        le_trans hcur (process_entry_cur_mono c st e st1 hpe)
      have hinv1 : StInv st1 := process_entry_StInv c st e st1 hpe hinv
      have key : ∀ (stl : BuildState) (fr : Bool), link_parent st e = .ok (stl, fr) →
          ∃ dl, alGet hh stl.dirs = some dl ∧
            dl.dir_list.map DirEnt.name = d.dir_list.map DirEnt.name ++
              (if e.parent = some hh then [e.name.getD 0] else []) := by
        intro stl fr hl
        obtain ⟨_, _, _, _, _, _, _, hcase⟩ := link_parent_ok st e stl fr hl
        rcases hcase with ⟨hc1, _⟩ | ⟨_, pi, D0, nm, hpar, hDi, hnm, hdirs⟩
        · omega
        · by_cases hph : e.parent = some hh
          · have hpieq : pi = hh := by
              rw [hph] at hpar
              injection hpar with hpar
              exact hpar.symm
            subst hpieq
            rw [hd] at hDi
            injection hDi with hDi
            subst hDi
            refine ⟨_, by rw [hdirs, alGet_put_self], ?_⟩
            simp [hph, hnm]
          · have hpine : pi ≠ hh := by
              intro heq
              rw [heq] at hpar
              exact hph hpar
            refine ⟨d, ?_, by simp [hph]⟩
            rw [hdirs, alGet_put_other _ _ _ _ (fun hq => hpine hq.symm)]
            exact hd
      rcases process_entry_ok_cases c st e st1 hpe with
        ⟨stl, hl, hs⟩ | ⟨stl, st2, hl, hr, hs⟩
      · obtain ⟨dl, hdl, hdlnames⟩ := key stl false hl
        rw [← hs] at hdl
        obtain ⟨d', hd', hnames⟩ := ih st1 st' h hcur1 hinv1 hh dl hdl
        refine ⟨d', hd', ?_⟩
        rw [hnames, hdlnames, List.filter_cons]
        by_cases hph : e.parent = some hh
        · simp [hph]
        · simp [hph]
      · obtain ⟨dl, hdl, hdlnames⟩ := key stl true hl
        obtain ⟨_, _, hdir, hndir, _, _⟩ := render_entry_ok c stl e st2 hr
        have hdl2 : alGet hh st2.dirs = some dl := by
          by_cases hkind : e.md.kind = .dir
          · obtain ⟨hd2, _⟩ := hdir hkind
            have hfresh : alGet e.md.ino st.host_to_pfs = none := by
              obtain ⟨_, _, _, _, _, _, hiff, _⟩ := link_parent_ok st e stl true hl
              rcases hmem : alGet e.md.ino st.host_to_pfs with _ | w
              · rfl
              · exfalso
                have := hiff.mpr ⟨by omega, by simp [hmem]⟩
                simp at this
            have hne : hh ≠ e.md.ino := by
              intro heq
              have h1 : (alGet hh st.dirs).isSome := by simp [hd]
              have h2 := hinv hh h1
              rw [heq, hfresh] at h2
              simp at h2
            rw [hd2, alGet_put_other _ _ _ _ hne]
            exact hdl
          · rw [hndir hkind]
            exact hdl
        have hdl3 : alGet hh st1.dirs = some dl := by
          rw [hs]
          exact hdl2
        obtain ⟨d', hd', hnames⟩ := ih st1 st' h hcur1 hinv1 hh dl hdl3
        refine ⟨d', hd', ?_⟩
        rw [hnames, hdlnames, List.filter_cons]
        by_cases hph : e.parent = some hh
        · simp [hph]
        · simp [hph]

/-- A directory node inside a tree contributes a walk entry of dir kind with
its host inode. -/
theorem walk_dirnode_entry :
    ∀ (t : FsNode) (hno : Nat) (csd : List (Nat × FsNode)), DirNode t hno csd →
      ∀ (p : Option Nat) (n : Nat),
        ∃ e ∈ walkNode p n t, e.md.ino = hno ∧ e.md.kind = .dir := by
  intro t hno csd hdn
  induction hdn with
  | here h a cs =>
    intro p n
    refine ⟨mkEntry p n (.dir h a cs), ?_, by simp [mkEntry, FsNode.meta],
      by simp [mkEntry, FsNode.meta]⟩
    rw [walkNode_dir]
    simp
  | @child h0 a0 cs0 x hno csd hx hsub ih =>
    intro p n
    obtain ⟨e, he, hei, hek⟩ := ih (some h0) x.1
    refine ⟨e, ?_, hei, hek⟩
    rw [walkNode_dir]
    simp only [List.mem_cons]
    right
    rw [List.mem_flatten]
    refine ⟨walkNode (some h0) x.1 x.2, ?_, he⟩
    rw [List.mem_map]
    exact ⟨x, by simp [sortChildren, List.mem_insertionSort, hx], rfl⟩

/-- C7: for every input tree whose directory host inodes are unique across
the walk (no hard-linked directories), every directory's entry list in the
walked state has exactly one DirEnt per immediate child, in ascending name
order. -/
theorem dir_entries_one_per_child_sorted
    (c : Chunker) (rootName : Nat) (t : FsNode) (st : BuildState)
    (huniq : ∀ e ∈ walkNode none rootName t, e.md.kind = .dir →
      ((walkNode none rootName t).map (fun x => x.md.ino)).count e.md.ino = 1)
    (hok : process_entries c initState (walkNode none rootName t) = .ok st) :
    ∀ (hno : Nat) (csd : List (Nat × FsNode)), DirNode t hno csd →
      ∃ d, alGet hno st.dirs = some d ∧
        d.dir_list.map DirEnt.name = (sortChildren csd).map Prod.fst ∧
        (d.dir_list.map DirEnt.name).Perm (csd.map Prod.fst) ∧
        List.Sorted (fun a b => a ≤ b) (d.dir_list.map DirEnt.name) := by
  intro hno csd hdn
  obtain ⟨eh0, hmem0, hino0, hkind0⟩ := walk_dirnode_entry t hno csd hdn none rootName
  have hcount : ((walkNode none rootName t).map (fun x => x.md.ino)).count hno = 1 := by
    have := huniq eh0 hmem0 hkind0
    rw [hino0] at this
    exact this
  obtain ⟨A, eh, B, hsplit, hehino, hehkind, hnotinA, _, hfiltB⟩ :=
    walk_dir_segment t hno csd hdn none rootName hcount (by simp)
  rw [hsplit] at hok
  obtain ⟨stA, hA, hrest⟩ := process_entries_split c A (eh :: B) initState st hok
  rw [process_entries] at hrest
  cases hpe : process_entry c stA eh with
  | err m => rw [hpe] at hrest; exact absurd hrest (by simp)
  | assertFail m => rw [hpe] at hrest; exact absurd hrest (by simp)
  | ok stE =>
    rw [hpe] at hrest
    dsimp only at hrest
    have hinvA : StInv stA :=
      process_entries_StInv c A initState stA hA (by intro k hk; simp [initState, alGet] at hk)
    have hcurA : 1 ≤ stA.cur_ino := process_entries_cur_mono c A initState stA hA
    have hfreshA : alGet eh.md.ino stA.host_to_pfs = none := by
      rcases hmem : alGet eh.md.ino stA.host_to_pfs with _ | w
      · rfl
      · exfalso
        rcases process_entries_host_keys c A initState stA hA eh.md.ino
            (by simp [hmem]) with hk | hk
        · simp [initState, alGet] at hk
        · apply hnotinA
          rw [hehino] at hk
          exact hk
    rcases process_entry_ok_cases c stA eh stE hpe with
      ⟨stl, hl, hs⟩ | ⟨stl, st2, hl, hr, hs⟩
    · exfalso
      obtain ⟨_, _, _, _, _, _, hiff, _⟩ := link_parent_ok stA eh stl false hl
      obtain ⟨_, hsome⟩ := hiff.mp rfl
      rw [hfreshA] at hsome
      simp at hsome
    · obtain ⟨hmapl, hinol, _, _, _, _, _, _⟩ := link_parent_ok stA eh stl true hl
      obtain ⟨hmapr, hino2, hdir, _, _, _⟩ := render_entry_ok c stl eh st2 hr
      obtain ⟨hd2, _⟩ := hdir hehkind
      have hlook : alGet hno stE.dirs =
          some ⟨stl.cur_ino, [], eh.md, eh.additional⟩ := by
        rw [hs]
        show alGet hno st2.dirs = _
        rw [hd2, ← hehino, alGet_put_self]
      have hinvE : StInv stE := process_entry_StInv c stA eh stE hpe hinvA
      have hcurE : 2 ≤ stE.cur_ino := by
        rw [hs]
        show 2 ≤ st2.cur_ino + 1
        omega
      obtain ⟨d, hd, hnames⟩ := process_entries_dir_growth c B stE st hrest hcurE hinvE
        hno ⟨stl.cur_ino, [], eh.md, eh.additional⟩ hlook
      have hnames2 : d.dir_list.map DirEnt.name = (sortChildren csd).map Prod.fst := by
        rw [hnames, hfiltB]
        simp [mkEntry]
      refine ⟨d, hd, hnames2, ?_, ?_⟩
      · rw [hnames2]
        exact List.Perm.map Prod.fst (List.perm_insertionSort _ csd)
      · rw [hnames2]
        exact List.Pairwise.map Prod.fst (fun a b hab => hab)
          (@List.sorted_insertionSort (Nat × FsNode) (fun a b => a.1 ≤ b.1) _
            ⟨fun a b => Nat.le_total a.1 b.1⟩
            ⟨fun _ _ _ h1 h2 => Nat.le_trans h1 h2⟩ csd)

/-- Concrete instance of the entry-list theorem: the children supplied in the
order 7, 3 come out as one entry each, sorted 3, 7. -/
theorem dir_entries_one_per_child_sorted_witness :
    ∃ d, alGet 1 (⟨[(1, ⟨1, [⟨3, 2⟩, ⟨7, 3⟩], ⟨1, .dir, 0⟩, none⟩)], [],
        [Inode.new_other 2 ⟨4, .other, 0⟩ none], [(1, 1), (4, 2), (2, 3)], 4, [],
        [⟨3, [], ⟨2, .file, 0⟩, none⟩]⟩ : BuildState).dirs = some d ∧
      d.dir_list.map DirEnt.name =
        (sortChildren [(7, FsNode.file 2 none []), (3, FsNode.other 4 none)]).map
          Prod.fst ∧
      (d.dir_list.map DirEnt.name).Perm
        ([(7, FsNode.file 2 none []), (3, FsNode.other 4 none)].map Prod.fst) ∧
      List.Sorted (fun a b => a ≤ b) (d.dir_list.map DirEnt.name) := by
  have hwalk : walkNode none 0 c7Tree =
      [⟨some 0, none, ⟨1, .dir, 0⟩, [], none⟩,
       ⟨some 3, some 1, ⟨4, .other, 0⟩, [], none⟩,
       ⟨some 7, some 1, ⟨2, .file, 0⟩, [], none⟩] := by
    simp [c7Tree, walkNode_dir, walkNode_file, walkNode_other, sortChildren, mkEntry,
      FsNode.meta, FsNode.contentOf, FsNode.addOf]
  exact dir_entries_one_per_child_sorted noCutChunker 0 c7Tree _
    (by rw [hwalk]; decide) (by rw [hwalk]; decide) 1
    [(7, FsNode.file 2 none []), (3, FsNode.other 4 none)]
    (DirNode.here 1 none _)

end PFS
